import Mathlib

/-!
Verification of the cache-coloring subsystem of the jailhouse-rt hypervisor.

This file gives a shallow embedding, in Lean 4, of the coloring code:

* color arithmetic (`log_two`, `calculate_addr_col_mask`, `next_colored`)
  from `include/jailhouse/coloring.h`;
* the fragment planner and region operator (`build_mask`, `ranges_in_mask`,
  `__manage_colored_region`) from the arm64 coloring unit;
* the root-cell recoloring engine (`colored_copy`, `colored_uncopy`);
* the driver-side validator (`simulate_coloring`, `col_mem_bounded`,
  `mem_root_overlap`, `jailhouse_coloring_cell_setup`) from the driver
  coloring module.

C machine integers are modelled as `Nat`; the sources only rely on
wrap-around behaviour at addresses near `2^64`, which are outside the
physically meaningful range considered here, so no modular reduction is
applied except where a definition notes it.  Loops without a structural
termination measure are modelled with an explicit fuel argument returning
`Option`, so that divergence of the C loop is observable as `none` for
every fuel.
-/

/-! ## Part 1: color arithmetic (include/jailhouse/coloring.h) -/

/-- `HV_PAGE_SHIFT` from include/jailhouse/coloring.h. -/
def HV_PAGE_SHIFT : ℕ := 12

/-- `HV_PAGE_SIZE = 1 << HV_PAGE_SHIFT`. -/
def HV_PAGE_SIZE : ℕ := 1 <<< HV_PAGE_SHIFT

/-- Helper loop of `log_two`.  The C loop is
`i = 1; j = 1; while (i < n) { j++; i = 1 << j; }; return j`:
after the first test at `i = 1` it only ever tests `i = 2^j` for `j ≥ 2`,
so it is the climb `j := 2, 3, ...` until `2^j ≥ n`.  The loop runs at
most `n` further iterations (the climb stops once `2^j ≥ n` and
`2^j` outgrows `j`), so a fuel of `n` is always sufficient; fuel is used
only to make the recursion structural. -/
def log_two_go (n : ℕ) : ℕ → ℕ → ℕ
  | 0, j => j
  | fuel + 1, j => if (1 <<< j) < n then log_two_go n fuel (j + 1) else j

/-- `log_two` from include/jailhouse/coloring.h: returns `1` for `n ≤ 1`
and otherwise the least `j ≥ 2` with `2^j ≥ n` (note the C loop skips
`j = 1`, so `log_two 2 = 2`). -/
def log_two (n : ℕ) : ℕ :=
  if 1 < n then log_two_go n n 2 else 1

/-- `calculate_addr_col_mask` from include/jailhouse/coloring.h: or-together
the bits from `log_two(HV_PAGE_SIZE)` up to `log_two(llc_way_size) - 1`. -/
def calculate_addr_col_mask_go (low : ℕ) : ℕ → ℕ
  | 0 => 0
  | k + 1 => calculate_addr_col_mask_go low k ||| (1 <<< (low + k))

/-- `calculate_addr_col_mask llc_way_size`: the loop
`for (i = low_idx; i <= high_idx; i++) mask |= 1 << i` with
`low_idx = log_two(HV_PAGE_SIZE)`, `high_idx = log_two(llc_way_size) - 1`,
expressed as a recursion on the number of loop iterations
`high_idx + 1 - low_idx`. -/
def calculate_addr_col_mask (llc_way_size : ℕ) : ℕ :=
  calculate_addr_col_mask_go (log_two HV_PAGE_SIZE)
    (log_two llc_way_size - 1 + 1 - log_two HV_PAGE_SIZE)

/-- The current-color extraction loop of `next_colored`:
`for (k = 0, i = low_idx; i < high_idx; i++, k++)
   if (retval & (1UL << i)) cur_col_mask_conf |= (1UL << k);`
as a recursion on the iteration count `high_idx - low_idx` (the or-fold
is order-independent, so accumulating from the top iteration downwards
yields the same value as the C loop). -/
def cur_col_conf_go (retval low : ℕ) : ℕ → ℕ
  | 0 => 0
  | k + 1 =>
    cur_col_conf_go retval low k |||
      (if retval &&& (1 <<< (low + k)) ≠ 0 then 1 <<< k else 0)

/-- `cur_col_mask_conf` as computed by `next_colored` for a given `retval`. -/
def cur_col_conf (retval low high : ℕ) : ℕ :=
  cur_col_conf_go retval low (high - low)

/-- The carry loop of `next_colored`
(`while (!(cur_col_bit & col_val)) { ... }`), with explicit fuel.
State: `cur_bit = cur_col_bit`, `cur_conf = cur_col_mask_conf`,
`retval`.  A carry adds `1 << high_idx` to `retval` and restarts from
color 0; otherwise the candidate color bit is shifted up by one.
Returns `none` when the fuel runs out. -/
def nc_loop (col_val high_idx : ℕ) : ℕ → ℕ → ℕ → ℕ → Option (ℕ × ℕ)
  | 0, _, _, _ => none
  | fuel + 1, cur_bit, cur_conf, retval =>
    if cur_bit &&& col_val ≠ 0 then some (cur_conf, retval)
    else if col_val < cur_bit then
      nc_loop col_val high_idx fuel (1 <<< 0) 0 (retval + (1 <<< high_idx))
    else
      nc_loop col_val high_idx fuel (cur_bit <<< 1) (cur_conf + 1) retval

/-- `next_colored` from include/jailhouse/coloring.h, with explicit fuel
for the carry loop.  The final
`retval &= ~((1 << high_idx) - 1); retval |= cur_col_mask_conf << 12`
clears the bits below `high_idx` (on unbounded naturals,
`(retval >>> high_idx) <<< high_idx`) and installs the found color. -/
def next_colored_gas (gas phys addr_col_mask col_val : ℕ) : Option ℕ :=
  if col_val = 0 then some phys
  else
    let high_idx := log_two addr_col_mask
    let max_col_val := (1 <<< ((addr_col_mask >>> HV_PAGE_SHIFT) + 1)) - 1
    let col_val :=
      if max_col_val < col_val then col_val &&& ((1 <<< high_idx) - 1)
      else col_val
    let conf0 := cur_col_conf phys HV_PAGE_SHIFT high_idx
    match nc_loop col_val high_idx gas (1 <<< conf0) conf0 phys with
    | none => none
    | some (conf, retval) =>
      some (((retval >>> high_idx) <<< high_idx) ||| (conf <<< HV_PAGE_SHIFT))

/-- `next_colored` with a default fuel that suffices whenever the carry
loop terminates at all (at most two sweeps across the bits of the
sanitized `col_val`, each bounded by its bit-length). -/
def next_colored (phys addr_col_mask col_val : ℕ) : Option ℕ :=
  next_colored_gas (2 * col_val + 2 * log_two addr_col_mask + 8)
    phys addr_col_mask col_val


/-! ## Part 1b: data model (region descriptors and flags)

The numeric flag encodings live in `cell-config.h`, which is not part of
the sources; the flag bits the coloring code tests are modelled as a
structure of booleans. -/

/-- Modelled from the spec: the `flags` bits of a memory-region
descriptor tested by the coloring subsystem (`JAILHOUSE_MEM_READ`,
`WRITE`, `EXECUTE`, `IO`, `COMM_REGION`, `ROOTSHARED`, `LOADABLE`,
`COLORED`, `COLORED_CELL`); the numeric bit positions are defined in
`cell-config.h`, which is absent from the sources. -/
structure MemFlags where
  read : Bool
  write : Bool
  execute : Bool
  io : Bool
  comm_region : Bool
  rootshared : Bool
  loadable : Bool
  colored : Bool
  colored_cell : Bool
deriving DecidableEq

/-- All-clear flags value. -/
def no_flags : MemFlags :=
  ⟨false, false, false, false, false, false, false, false, false⟩

/-- `struct jailhouse_memory` as the coloring code uses it: base
addresses, size, flags, and (in the driver's descriptor format) the
color bitmap.  Fragments (`frag_mem_region`) reuse this structure with
`colors` unused. -/
structure JailhouseMemory where
  phys_start : ℕ
  virt_start : ℕ
  size : ℕ
  flags : MemFlags
  colors : ℕ
deriving DecidableEq

/-- `struct jailhouse_memory_colored`: a memory region plus the color
selection, as consumed by `__manage_colored_region`. -/
structure JailhouseMemoryColored where
  memory : JailhouseMemory
  colors : ℕ
deriving DecidableEq

/-- Modelled from the spec: `JAILHOUSE_MEMORY_IS_SUBPAGE` (defined in
`cell-config.h`, absent from the sources); the spec routes fragments
"smaller than a page" to the MMIO subpage registrar. -/
def JAILHOUSE_MEMORY_IS_SUBPAGE (m : JailhouseMemory) : Bool :=
  m.size < HV_PAGE_SIZE

/-! ## Part 1c: fragment planner (`__manage_colored_region`, unit
version, and `ranges_in_mask`) -/

/-- The mask-building loop of `__manage_colored_region`:
`for (i = MAX_COLORS-1; i >= 0; --i, colors >>= 1) mask[i] = (colors & 1);`
so entry `i` of the mask receives bit `MAX_COLORS - 1 - i` of `colors`
(the bitmap is read back-to-front). -/
def build_mask (max_colors colors : ℕ) : List Bool :=
  (List.range max_colors).map
    (fun i => ((colors >>> (max_colors - 1 - i)) &&& 1) = 1)

/-- The run-extension scan of `ranges_in_mask`:
`j = i; while(mask[++j] && j < size);` — increments `j`, reads
`mask[j]`, and continues while the entry is set and `j < size` (in that
order).  Out-of-list reads return `false` here (`List.getD`); the read
*indices* are accounted separately by `run_end_reads`.  Fuel only makes
the recursion structural; `size + 1` steps always suffice. -/
def run_end (mask : List Bool) (size : ℕ) : ℕ → ℕ → ℕ
  | 0, j => j + 1
  | fuel + 1, j =>
    if mask.getD (j + 1) false ∧ j + 1 < size then run_end mask size fuel (j + 1)
    else j + 1

/-- The indices at which the scan `while(mask[++j] && j < size)` reads
the `mask` array, in order: every iteration reads `mask[j+1]` before
testing `j + 1 < size`. -/
def run_end_reads (mask : List Bool) (size : ℕ) : ℕ → ℕ → List ℕ
  | 0, j => [j + 1]
  | fuel + 1, j =>
    if mask.getD (j + 1) false ∧ j + 1 < size then
      (j + 1) :: run_end_reads mask size fuel (j + 1)
    else [j + 1]

/-- Outer loop of `ranges_in_mask`: scan `k = 0 .. size-1`; at each set
entry start a run, record the maximal range `(k, j-1)`, and resume at
`k = j + 1` (the `k = j` assignment plus the `k++` of the `for`).
The `-1` padding entries of the C `values` array are represented by the
list simply ending. -/
def ranges_go (mask : List Bool) (size : ℕ) : ℕ → ℕ → List (ℕ × ℕ)
  | 0, _ => []
  | fuel + 1, k =>
    if k < size then
      if mask.getD k false then
        let j := run_end mask size (size + 1) k
        (k, j - 1) :: ranges_go mask size fuel (j + 1)
      else ranges_go mask size fuel (k + 1)
    else []

/-- `ranges_in_mask` from the arm64 coloring unit: the ordered maximal
ranges `(i, j)` of set entries of `mask`. -/
def ranges_in_mask (mask : List Bool) (size : ℕ) : List (ℕ × ℕ) :=
  ranges_go mask size (size + 1) 0

/-- All indices at which `ranges_in_mask` reads the `mask` array, in
order: the outer loop reads `mask[k]` for each `k < size` it visits, and
each run started at a set entry adds the reads of the inner scan. -/
def ranges_reads_go (mask : List Bool) (size : ℕ) : ℕ → ℕ → List ℕ
  | 0, _ => []
  | fuel + 1, k =>
    if k < size then
      if mask.getD k false then
        k :: (run_end_reads mask size (size + 1) k ++
          ranges_reads_go mask size fuel (run_end mask size (size + 1) k + 1))
      else k :: ranges_reads_go mask size fuel (k + 1)
    else []

/-- The read-index trace of `ranges_in_mask mask size`. -/
def ranges_in_mask_reads (mask : List Bool) (size : ℕ) : List ℕ :=
  ranges_reads_go mask size (size + 1) 0

/-- One stride of fragments of `__manage_colored_region`: the inner
`for (k = 0; k < MAX_COLORS*2; k += 2)` loop over the recorded ranges.
For range `(i, j)` at stride `r`, starting at virtual cursor `virt`:
`frag.size = (j-i+1)*f_size`,
`frag.phys_start = phys_start + i*f_size + r*f_offset`,
`frag.virt_start = virt`, `frag.flags = flags`, and the cursor advances
by `frag.size`.  Returns the fragments and the final cursor. -/
def emit_stride (phys_start f_size f_offset : ℕ) (flags : MemFlags) (r : ℕ) :
    List (ℕ × ℕ) → ℕ → List JailhouseMemory × ℕ
  | [], virt => ([], virt)
  | (i, j) :: rest, virt =>
    let frag : JailhouseMemory :=
      { phys_start := phys_start + i * f_size + r * f_offset
        virt_start := virt
        size := (j - i + 1) * f_size
        flags := flags
        colors := 0 }
    let out := emit_stride phys_start f_size f_offset flags r rest
      (virt + (j - i + 1) * f_size)
    (frag :: out.1, out.2)

/-- The stride loop of `__manage_colored_region` (unit version):
`while (virt_start < col_mem.memory.virt_start + col_mem.memory.size)`,
emitting one batch of range fragments per stride `r = 0, 1, 2, ...`.
Returns `none` when the fuel runs out, which models the C loop never
terminating (the cursor only advances by the per-stride total, which can
be zero). -/
def plan_go (phys_start f_size f_offset : ℕ) (flags : MemFlags)
    (ranges : List (ℕ × ℕ)) (virt_end : ℕ) :
    ℕ → ℕ → ℕ → Option (List JailhouseMemory)
  | 0, _, _ => none
  | fuel + 1, virt, r =>
    if virt < virt_end then
      match plan_go phys_start f_size f_offset flags ranges virt_end fuel
        (emit_stride phys_start f_size f_offset flags r ranges virt).2 (r + 1) with
      | none => none
      | some rest =>
        some ((emit_stride phys_start f_size f_offset flags r ranges virt).1 ++ rest)
    else some []

/-- The fragment sequence produced by `__manage_colored_region`
(part_012 / unit version) for a colored region, given the cache geometry
`f_size = cache.fragment_unit_size` (the page size) and
`f_offset = cache.fragment_unit_offset` (the way size):
`MAX_COLORS = f_offset / f_size`, build the (reversed) boolean mask from
`col_mem.colors`, extract the ranges, and run the stride loop from
`virt_start` until the cursor reaches `virt_start + size`.  A fuel of
`size + 1` strides suffices whenever the loop terminates at all. -/
def manage_colored_region_fragments (col_mem : JailhouseMemoryColored)
    (f_size f_offset : ℕ) : Option (List JailhouseMemory) :=
  let max_colors := f_offset / f_size
  let mask := build_mask max_colors col_mem.colors
  let ranges := ranges_in_mask mask max_colors
  plan_go col_mem.memory.phys_start f_size f_offset col_mem.memory.flags
    ranges (col_mem.memory.virt_start + col_mem.memory.size)
    (col_mem.memory.size + 1) col_mem.memory.virt_start 0

/-- The virtual footprint of one stride: the total size of the
fragments emitted for the recorded ranges,
`sum over ranges (i,j) of (j - i + 1) * f_size`. -/
def ranges_size (ranges : List (ℕ × ℕ)) (f_size : ℕ) : ℕ :=
  (ranges.map (fun ij => (ij.2 - ij.1 + 1) * f_size)).sum

/-! ## Part 1d: the DESTROY region operation of
`__manage_colored_region` -/

/-- The collaborator calls the DESTROY case makes, in order. -/
inductive ColCall where
  | unmap (f : JailhouseMemory)
  | remap_root (f : JailhouseMemory)
deriving DecidableEq

/-- One fragment of the DESTROY case:
if the fragment is not a subpage, `err = col_ops.unmap_f(...)` and any
nonzero `err` is returned immediately; then, if the fragment is neither
a communication region nor root-shared,
`err = col_ops.remap_root_f(..., WARN_ON_ERROR)` and any nonzero `err`
is returned immediately.  Result: updated `err`, the calls made, and
whether the operation aborted. -/
def destroy_frag_step (unmap_f remap_root_f : JailhouseMemory → Int)
    (f : JailhouseMemory) (err : Int) : Int × List ColCall × Bool :=
  let stage1 : Int × List ColCall × Bool :=
    if ¬ JAILHOUSE_MEMORY_IS_SUBPAGE f then
      let e := unmap_f f
      (e, [ColCall.unmap f], e ≠ 0)
    else (err, [], false)
  if stage1.2.2 then stage1
  else if ¬ (f.flags.comm_region ∨ f.flags.rootshared) then
    let e := remap_root_f f
    (e, stage1.2.1 ++ [ColCall.remap_root f], e ≠ 0)
  else (stage1.1, stage1.2.1, false)

/-- The DESTROY operation over the fragment list: fragments are
processed in order and the first nonzero error from `unmap_f` or
`remap_root_f` is returned immediately, leaving the remaining fragments
unprocessed (this mirrors the `if (err) return err;` after each call in
`__manage_colored_region`; `err` starts at `-EINVAL` and is threaded
through as in the C). -/
def destroy_run (unmap_f remap_root_f : JailhouseMemory → Int) :
    List JailhouseMemory → Int → Int × List ColCall
  | [], err => (err, [])
  | f :: rest, err =>
    if (destroy_frag_step unmap_f remap_root_f f err).2.2 then
      ((destroy_frag_step unmap_f remap_root_f f err).1,
        (destroy_frag_step unmap_f remap_root_f f err).2.1)
    else
      ((destroy_run unmap_f remap_root_f rest
          (destroy_frag_step unmap_f remap_root_f f err).1).1,
        (destroy_frag_step unmap_f remap_root_f f err).2.1 ++
          (destroy_run unmap_f remap_root_f rest
            (destroy_frag_step unmap_f remap_root_f f err).1).2)

/-- The calls DESTROY makes for a fragment list when no operation
fails: per fragment, an `unmap` unless it is a subpage, then a
`remap_root` unless it is a communication or root-shared region. -/
def destroy_expected_calls (frags : List JailhouseMemory) : List ColCall :=
  frags.flatMap (fun f =>
    (if ¬ JAILHOUSE_MEMORY_IS_SUBPAGE f then [ColCall.unmap f] else []) ++
    (if ¬ (f.flags.comm_region ∨ f.flags.rootshared) then
      [ColCall.remap_root f] else []))

/-! ## Part 1e: root-cell recoloring engine (`colored_copy`,
`colored_uncopy`)

Memory is modelled at page granularity: `mem : ℕ → ℕ` maps a physical
page number to that page's contents (the `memcpy` calls copy whole
pages).  `Φ` is the page translation of the colored mapping installed by
`HV_CREATE` at `ROOT_MAP_OFFSET + virt`: region page index `p` maps to
physical page `Φ p`.  The temporary mapping installed per slice aliases
the original (identity) physical window, so a read through it of region
page `p` reads physical page `src_start + p`. -/

/-- Point update of page-granular memory. -/
def write_page (mem : ℕ → ℕ) (a v : ℕ) : ℕ → ℕ :=
  fun x => if x = a then v else mem x

/-- Inner loop of `colored_copy`:
`for (i = (size >> PAGE_SHIFT) - 1; i >= 0; --i) memcpy(colored, tmp, PAGE_SIZE);`
pages of the slice starting at region page `base` are copied in
*decreasing* index order: page `base + i` is copied from the original
frame `src_start + base + i` to the colored frame `Φ (base + i)`. -/
def colored_slice_copy (Φ : ℕ → ℕ) (src_start base : ℕ) :
    ℕ → (ℕ → ℕ) → (ℕ → ℕ)
  | 0, mem => mem
  | i + 1, mem =>
    colored_slice_copy Φ src_start base i
      (write_page mem (Φ (base + i)) (mem (src_start + base + i)))

/-- Outer loop of `colored_copy`: slices of at most
`NUM_TEMPORARY_PAGES` (`temp_pages`) pages, processed from the *end* of
the region backwards (`phys_addr -= size`), each slice copied by
`colored_slice_copy`.  `tot` counts the pages still to copy; the slice
covers region pages `[tot - slice, tot)`.  Fuel `tot + 1` suffices when
`temp_pages ≥ 1`. -/
def colored_copy_go (Φ : ℕ → ℕ) (src_start temp_pages : ℕ) :
    ℕ → ℕ → (ℕ → ℕ) → (ℕ → ℕ)
  | 0, _, mem => mem
  | fuel + 1, tot, mem =>
    if tot = 0 then mem
    else
      let size := min tot temp_pages
      colored_copy_go Φ src_start temp_pages fuel (tot - size)
        (colored_slice_copy Φ src_start (tot - size) size mem)

/-- `colored_copy` from the arm64 coloring unit, at page granularity:
copy `tot_pages` region pages from the original identity layout
(physical pages `src_start + p`) into the colored layout (`Φ p`),
backwards, in slices of `temp_pages` pages. -/
def colored_copy (Φ : ℕ → ℕ) (src_start tot_pages temp_pages : ℕ)
    (mem : ℕ → ℕ) : ℕ → ℕ :=
  colored_copy_go Φ src_start temp_pages (tot_pages + 1) tot_pages mem

/-- Inner loop of `colored_uncopy`:
`for (i = 0; i < (size >> PAGE_SHIFT); ++i) memcpy(tmp, colored, PAGE_SIZE);`
pages are copied in *increasing* index order, from the colored frame
`Φ p` back to the original frame `src_start + p`. -/
def colored_slice_uncopy (Φ : ℕ → ℕ) (src_start : ℕ) :
    ℕ → ℕ → (ℕ → ℕ) → (ℕ → ℕ)
  | _, 0, mem => mem
  | p, count + 1, mem =>
    colored_slice_uncopy Φ src_start (p + 1) count
      (write_page mem (src_start + p) (mem (Φ p)))

/-- Outer loop of `colored_uncopy`: slices processed from the start of
the region forwards (`phys_addr += size`); `done` counts the pages
already copied. -/
def colored_uncopy_go (Φ : ℕ → ℕ) (src_start temp_pages tot_pages : ℕ) :
    ℕ → ℕ → (ℕ → ℕ) → (ℕ → ℕ)
  | 0, _, mem => mem
  | fuel + 1, done, mem =>
    if tot_pages - done = 0 then mem
    else
      let size := min (tot_pages - done) temp_pages
      colored_uncopy_go Φ src_start temp_pages tot_pages fuel (done + size)
        (colored_slice_uncopy Φ src_start done size mem)

/-- `colored_uncopy` from the arm64 coloring unit, at page granularity:
the forward-order reverse of `colored_copy`. -/
def colored_uncopy (Φ : ℕ → ℕ) (src_start tot_pages temp_pages : ℕ)
    (mem : ℕ → ℕ) : ℕ → ℕ :=
  colored_uncopy_go Φ src_start temp_pages tot_pages (tot_pages + 1) 0 mem

/-! ## Part 1f: driver-side validator (driver coloring module) -/

/-- `ENOMEM`; the driver returns `-ENOMEM` on every validation
failure. -/
def ENOMEM : Int := 12

/-- `address_in_region` from the driver coloring module. -/
def address_in_region (addr : ℕ) (region : JailhouseMemory) : Bool :=
  decide (region.phys_start ≤ addr ∧ addr < region.phys_start + region.size)

/-- The loop of `simulate_coloring`:
`while (size > 0) { end = driver_next_colored(end, col_val); end += PAGE_SIZE; size -= PAGE_SIZE; }`.
`driver_next_colored(end, col_val) = next_colored(end, coloring_mask, col_val)`.
A `none` from `next_colored` (divergence of its carry loop) propagates.
The C loop terminates only for page-multiple sizes (the `size` counter
is unsigned); the `Nat` subtraction used here agrees with the C on page
multiples, which is what the data model guarantees.  Fuel `size + 1`
iterations always suffice. -/
def simulate_go (coloring_mask col_val : ℕ) : ℕ → ℕ → ℕ → Option ℕ
  | 0, e, size => if size = 0 then some e else none
  | fuel + 1, e, size =>
    if size = 0 then some e
    else
      match next_colored e coloring_mask col_val with
      | none => none
      | some e2 =>
        simulate_go coloring_mask col_val fuel (e2 + HV_PAGE_SIZE)
          (size - HV_PAGE_SIZE)

/-- `simulate_coloring` from the driver coloring module: walk
`next_colored` page by page from `start & HV_PAGE_MASK` (the low page
bits cleared), accumulating one page per step, and return the final
address; no mappings are installed. -/
def simulate_coloring (coloring_mask start size col_val : ℕ) : Option ℕ :=
  simulate_go coloring_mask col_val (size + 1)
    ((start >>> HV_PAGE_SHIFT) <<< HV_PAGE_SHIFT) size

/-- `col_mem_bounded` from the driver coloring module: simulate coloring
of `mem.size` at `mem.colors` starting from the root colored region's
base, and fail with `-ENOMEM` when the final address exceeds the root
colored region's end. -/
def col_mem_bounded (coloring_mask : ℕ) (root : Option JailhouseMemory)
    (mem : JailhouseMemory) : Option Int :=
  match root with
  | none => some (-ENOMEM)
  | some rt =>
    match simulate_coloring coloring_mask rt.phys_start mem.size mem.colors with
    | none => none
    | some phys_end =>
      if rt.phys_start + rt.size < phys_end then some (-ENOMEM) else some 0

/-- `mem_root_overlap` from the driver coloring module: with no root
colored region the check passes; otherwise fail when either
`mem.phys_start` or the simulated final address falls inside the root
colored region. -/
def mem_root_overlap (coloring_mask : ℕ) (root : Option JailhouseMemory)
    (mem : JailhouseMemory) : Option Int :=
  match root with
  | none => some 0
  | some rt =>
    let err0 : Int := if address_in_region mem.phys_start rt then -ENOMEM else 0
    match simulate_coloring coloring_mask mem.phys_start mem.size mem.colors with
    | none => none
    | some phys_end =>
      if address_in_region phys_end rt then some (-ENOMEM) else some err0

/-- `root_cell_memory` from the driver coloring module: the first root
region carrying the `JAILHOUSE_MEM_COLORED` flag. -/
def root_cell_memory (regions : List JailhouseMemory) : Option JailhouseMemory :=
  regions.find? (fun m => m.flags.colored)

/-- Outcome of the per-region validation step of
`jailhouse_coloring_cell_setup` on one region. -/
inductive SetupStep where
  /-- continue with the (possibly updated) region -/
  | ok (m2 : JailhouseMemory)
  /-- stop with error `e`, the region left as `m2` (covers both the
  early `return -ENOMEM` paths and the `break` after a failed bound
  check) -/
  | fail (e : Int) (m2 : JailhouseMemory)
  /-- `simulate_coloring` diverged -/
  | diverge
deriving DecidableEq

/-- The validation of one region in the loop body of
`jailhouse_coloring_cell_setup`.  For a region flagged
`JAILHOUSE_MEM_COLORED_CELL`: the root cell (id 0) silently strips the
flag and continues; then the checks `coloring_mask != 0`,
`colors != 0`,
`colors <= max_color_val = (1 << ((coloring_mask >> PAGE_SHIFT) + 1)) - 1`
each fail with `-ENOMEM`; a manual region (`phys_start != 0`) must not
overlap the root colored region; a managed region (`phys_start == 0`)
requires a root colored region, gets `phys_start = root.phys_start`,
and must pass `col_mem_bounded` (a failure there is the C `break`,
which also stops processing with the error). -/
def cell_region_check (coloring_mask : ℕ) (root : Option JailhouseMemory)
    (cell_id : ℕ) (m : JailhouseMemory) : SetupStep :=
  if m.flags.colored_cell then
    if cell_id = 0 then
      SetupStep.ok { m with flags := { m.flags with colored_cell := false } }
    else if coloring_mask = 0 then SetupStep.fail (-ENOMEM) m
    else if m.colors = 0 then SetupStep.fail (-ENOMEM) m
    else if (1 <<< ((coloring_mask >>> HV_PAGE_SHIFT) + 1)) - 1 < m.colors then
      SetupStep.fail (-ENOMEM) m
    else if m.phys_start ≠ 0 then
      match mem_root_overlap coloring_mask root m with
      | none => SetupStep.diverge
      | some e =>
        if e ≠ 0 then SetupStep.fail (-ENOMEM) m else SetupStep.ok m
    else
      match root with
      | none => SetupStep.fail (-ENOMEM) m
      | some rt =>
        match col_mem_bounded coloring_mask root
          { m with phys_start := rt.phys_start } with
        | none => SetupStep.diverge
        | some e =>
          if e ≠ 0 then
            SetupStep.fail e { m with phys_start := rt.phys_start }
          else SetupStep.ok { m with phys_start := rt.phys_start }
  else SetupStep.ok m

/-- The per-region loop of `jailhouse_coloring_cell_setup`: apply
`cell_region_check` to each region in order; a failing region stops
processing and its error is returned (both the early `return` paths and
the `break` after a failed managed-bound check behave this way).
Returns the error code and the updated region list; `none` models
divergence of `simulate_coloring`. -/
def cell_setup_go (coloring_mask : ℕ) (root : Option JailhouseMemory)
    (cell_id : ℕ) : List JailhouseMemory → Option (Int × List JailhouseMemory)
  | [] => some (0, [])
  | m :: rest =>
    match cell_region_check coloring_mask root cell_id m with
    | SetupStep.diverge => none
    | SetupStep.fail e m2 => some (e, m2 :: rest)
    | SetupStep.ok m2 =>
      match cell_setup_go coloring_mask root cell_id rest with
      | none => none
      | some (e2, rs) => some (e2, m2 :: rs)

/-- `jailhouse_coloring_cell_setup` from the driver coloring module,
over the cell's region list. -/
def jailhouse_coloring_cell_setup (coloring_mask : ℕ)
    (root : Option JailhouseMemory) (cell_id : ℕ)
    (regions : List JailhouseMemory) : Option (Int × List JailhouseMemory) :=
  cell_setup_go coloring_mask root cell_id regions

/-! ## Part 2: characterization lemmas for the color arithmetic -/

lemma log_two_go_eq {n w : ℕ} (hw : 2 ^ (w - 1) < n) (hn : n ≤ 2 ^ w) :
    ∀ fuel j, j ≤ w → w - j ≤ fuel → log_two_go n fuel j = w := by
  intro fuel
  induction fuel with
  | zero =>
    intro j hj hf
    have hjw : j = w := by omega
    simp [log_two_go, hjw]
  | succ fuel ih =>
    intro j hj hf
    rw [log_two_go]
    rcases Nat.lt_or_ge j w with hlt | hge
    · have hstep : (1 <<< j) < n := by
        have : (2 : ℕ) ^ j ≤ 2 ^ (w - 1) := Nat.pow_le_pow_right (by norm_num) (by omega)
        simpa [Nat.one_shiftLeft] using lt_of_le_of_lt this hw
      rw [if_pos hstep]
      exact ih (j + 1) (by omega) (by omega)
    · have hjw : j = w := by omega
      have hstop : ¬ (1 <<< j) < n := by
        simp only [Nat.one_shiftLeft, hjw]
        omega
      rw [if_neg hstop, hjw]

lemma log_two_eq {n w : ℕ} (hw2 : 2 ≤ w) (hlow : 2 ^ (w - 1) < n)
    (hhigh : n ≤ 2 ^ w) : log_two n = w := by
  have h1n : 1 < n := by
    have : (1 : ℕ) ≤ 2 ^ (w - 1) := Nat.one_le_two_pow
    omega
  have hfuel : w - 2 ≤ n := by
    have : w - 1 < 2 ^ (w - 1) := Nat.lt_two_pow (w - 1)
    omega
  rw [log_two, if_pos h1n]
  exact log_two_go_eq hlow hhigh n 2 hw2 hfuel

/-- The coloring mask with color bits `[12, w)` is recognized by `log_two`
as having `high_idx = w`, for any geometry with at least two color bits. -/
lemma log_two_mask {w : ℕ} (hw : 14 ≤ w) : log_two (2 ^ w - 2 ^ 12) = w := by
  have h1 : (2 : ℕ) ^ 12 < 2 ^ (w - 1) := Nat.pow_lt_pow_right (by norm_num) (by omega)
  have h2 : (2 : ℕ) ^ w = 2 * 2 ^ (w - 1) := by
    conv_lhs => rw [show w = w - 1 + 1 by omega]
    rw [pow_succ]
    ring
  exact log_two_eq (by omega) (by omega) (by omega)

lemma cur_col_conf_go_eq (r low : ℕ) :
    ∀ k, cur_col_conf_go r low k = (r >>> low) % 2 ^ k := by
  intro k
  induction k with
  | zero => simp [cur_col_conf_go, Nat.mod_one]
  | succ k ih =>
    rw [cur_col_conf_go, ih]
    have hbit : r &&& (1 <<< (low + k)) ≠ 0 ↔ (r >>> low).testBit k = true := by
      rw [Nat.one_shiftLeft, Nat.and_two_pow, Nat.testBit_shiftRight]
      rcases hb : r.testBit (low + k) with _ | _ <;>
        simp [hb, Nat.pow_eq_zero]
    have hmod : (r >>> low) % 2 ^ (k + 1)
        = (r >>> low) % 2 ^ k + 2 ^ k * ((r >>> low) / 2 ^ k % 2) :=
      Nat.mod_pow_succ
    have hlt : (r >>> low) % 2 ^ k < 2 ^ k := Nat.mod_lt _ (Nat.two_pow_pos k)
    rcases hb : (r >>> low).testBit k with _ | _
    · have hdiv : (r >>> low) / 2 ^ k % 2 = 0 := by
        have h := Nat.testBit_to_div_mod (x := r >>> low) (i := k)
        rw [hb] at h
        simp at h
        omega
      have hcond : ¬ (r &&& (1 <<< (low + k)) ≠ 0) := by
        rw [hbit, hb]
        simp
      rw [if_neg hcond, Nat.or_zero, hmod, hdiv]
      omega
    · have hdiv : (r >>> low) / 2 ^ k % 2 = 1 := by
        have h := Nat.testBit_to_div_mod (x := r >>> low) (i := k)
        rw [hb] at h
        simpa using h.symm
      have hcond : r &&& (1 <<< (low + k)) ≠ 0 := by
        rw [hbit]
        exact hb
      rw [if_pos hcond, Nat.one_shiftLeft]
      have hor := Nat.mul_add_lt_is_or hlt 1
      simp only [Nat.mul_one] at hor
      rw [Nat.lor_comm, ← hor, hmod, hdiv]
      omega

/-- The current color read by `next_colored` is the color index of the
address: the bit-field `[low, high)` of `retval`, shifted down. -/
lemma cur_col_conf_eq (r low high : ℕ) :
    cur_col_conf r low high = (r >>> low) % 2 ^ (high - low) :=
  cur_col_conf_go_eq r low (high - low)

lemma one_shiftLeft_and_ne_iff {col m : ℕ} :
    (1 <<< m) &&& col ≠ 0 ↔ col.testBit m = true := by
  rw [Nat.one_shiftLeft, Nat.and_comm, Nat.and_two_pow]
  rcases hb : col.testBit m with _ | _ <;> simp [hb, Nat.pow_eq_zero]

lemma lt_two_pow_of_testBit_false {col c : ℕ}
    (h : ∀ t, c ≤ t → col.testBit t = false) : col < 2 ^ c := by
  by_contra hge
  obtain ⟨i, hi, hbit⟩ := Nat.ge_two_pow_implies_high_bit_true (x := col) (n := c) (by omega)
  rw [h i hi] at hbit
  exact Bool.false_ne_true hbit

/-- Sweep phase of the carry loop: starting at color candidate `c`, if the
lowest selected color at or above `c` is `m`, the loop reaches it without
carrying and returns `retval` untouched. -/
lemma nc_loop_finds {col : ℕ} (high : ℕ) {m : ℕ} (hm : col.testBit m = true) :
    ∀ fuel c retval, c ≤ m → (∀ t, c ≤ t → t < m → col.testBit t = false) →
      m - c < fuel →
      nc_loop col high fuel (1 <<< c) c retval = some (m, retval) := by
  intro fuel
  induction fuel with
  | zero => omega
  | succ fuel ih =>
    intro c retval hcm hmin hf
    rw [nc_loop]
    rcases Nat.eq_or_lt_of_le hcm with hceq | hclt
    · subst hceq
      rw [if_pos (one_shiftLeft_and_ne_iff.mpr hm)]
    · have hb : ¬ ((1 <<< c) &&& col ≠ 0) := by
        rw [one_shiftLeft_and_ne_iff, hmin c (le_refl c) hclt]
        simp
      have hge : ¬ col < 1 <<< c := by
        have h1 : (2 : ℕ) ^ c ≤ 2 ^ m := Nat.pow_le_pow_right (by norm_num) (by omega)
        have h2 : (2 : ℕ) ^ m ≤ col := Nat.testBit_implies_ge hm
        rw [Nat.one_shiftLeft]
        omega
      rw [if_neg hb, if_neg hge, ← Nat.shiftLeft_add]
      exact ih (c + 1) retval (by omega) (fun t ht htm => hmin t (by omega) htm) (by omega)

/-- Carry phase: when no selected color exists at or above the current
candidate `c`, the loop carries exactly once (advancing `retval` by
`2 ^ high`) and then finds the lowest selected color `m0`. -/
lemma nc_loop_carry {col : ℕ} (high : ℕ) {c m0 : ℕ}
    (hm0 : col.testBit m0 = true) (hm0min : ∀ t, t < m0 → col.testBit t = false)
    (hnone : ∀ t, c ≤ t → col.testBit t = false) :
    ∀ fuel retval, m0 + 1 < fuel →
      nc_loop col high fuel (1 <<< c) c retval
        = some (m0, retval + (1 <<< high)) := by
  intro fuel retval hf
  have hlt : col < 2 ^ c := lt_two_pow_of_testBit_false hnone
  obtain ⟨fuel, rfl⟩ : ∃ f, fuel = f + 1 := ⟨fuel - 1, by omega⟩
  rw [nc_loop]
  have hb : ¬ ((1 <<< c) &&& col ≠ 0) := by
    rw [one_shiftLeft_and_ne_iff, Nat.testBit_lt_two_pow hlt]
    simp
  have hcarry : col < 1 <<< c := by
    rw [Nat.one_shiftLeft]
    exact hlt
  rw [if_neg hb, if_pos hcarry]
  exact nc_loop_finds high hm0 fuel 0 (retval + (1 <<< high)) (by omega)
    (fun t _ htm => hm0min t htm) (by omega)

lemma mask_shiftRight_twelve {w : ℕ} (hw : 12 ≤ w) :
    (2 ^ w - 2 ^ 12) >>> 12 = 2 ^ (w - 12) - 1 := by
  rw [Nat.shiftRight_eq_div_pow]
  have hsplit : (2 : ℕ) ^ w = 2 ^ 12 * 2 ^ (w - 12) := by
    rw [← pow_add]
    congr 1
    omega
  rw [hsplit, show (2:ℕ)^12 * 2^(w-12) - 2^12 = 2^12 * (2^(w-12) - 1) by
      rw [Nat.mul_sub, Nat.mul_one]]
  exact Nat.mul_div_cancel_left _ (by positivity)

lemma mask_eq_shiftLeft {w : ℕ} (hw : 12 ≤ w) :
    2 ^ w - 2 ^ 12 = (2 ^ (w - 12) - 1) <<< 12 := by
  rw [Nat.shiftLeft_eq, Nat.sub_mul, one_mul, ← pow_add]
  congr 2
  omega

/-- The color of an address, as the spec computes it:
`(q & color_mask) >> page_shift` equals the bit-field
`q / page_size mod color_count`. -/
lemma color_of_eq {w : ℕ} (hw : 12 ≤ w) (q : ℕ) :
    (q &&& (2 ^ w - 2 ^ 12)) >>> 12 = q / 2 ^ 12 % 2 ^ (w - 12) := by
  have hand : q &&& (2 ^ w - 2 ^ 12) = 2 ^ 12 * (q / 2 ^ 12 % 2 ^ (w - 12)) := by
    apply Nat.eq_of_testBit_eq
    intro k
    rw [Nat.testBit_and, mask_eq_shiftLeft hw, Nat.testBit_shiftLeft,
        Nat.testBit_two_pow_sub_one]
    rw [show (2:ℕ)^12 * (q / 2^12 % 2^(w-12)) = (q / 2^12 % 2^(w-12)) <<< 12 by
      rw [Nat.shiftLeft_eq]; ring]
    rw [Nat.testBit_shiftLeft, Nat.testBit_mod_two_pow]
    rcases Nat.lt_or_ge k 12 with hk | hk
    · simp [show ¬ 12 ≤ k by omega]
    · have hq : q / 2 ^ 12 = q >>> 12 := (Nat.shiftRight_eq_div_pow q 12).symm
      rw [hq, Nat.testBit_shiftRight, show 12 + (k - 12) = k by omega]
      rcases Nat.lt_or_ge (k - 12) (w - 12) with h2 | h2
      · simp [show 12 ≤ k from hk, h2, Bool.and_comm]
      · simp [show 12 ≤ k from hk, show ¬ (k - 12 < w - 12) by omega, Bool.and_comm]
  rw [hand, Nat.shiftRight_eq_div_pow]
  exact Nat.mul_div_cancel_left _ (by positivity)

/-- Reassembly step of `next_colored`: clearing the bits below `high_idx`
and or-ing in the found color `m << 12` produces
`way_base + m * page_size`. -/
lemma reassemble_eq {w m retval : ℕ} (hw : 12 ≤ w) (hm : m < 2 ^ (w - 12)) :
    ((retval >>> w) <<< w) ||| (m <<< HV_PAGE_SHIFT)
      = 2 ^ w * (retval / 2 ^ w) + 2 ^ 12 * m := by
  have hsh : HV_PAGE_SHIFT = 12 := rfl
  have hlt : m <<< HV_PAGE_SHIFT < 2 ^ w := by
    rw [hsh, Nat.shiftLeft_eq]
    calc m * 2 ^ 12 < 2 ^ (w - 12) * 2 ^ 12 :=
          (Nat.mul_lt_mul_right (by positivity)).mpr hm
      _ = 2 ^ w := by rw [← pow_add]; congr 1; omega
  have hror := Nat.mul_add_lt_is_or (i := w) hlt (retval / 2 ^ w)
  rw [Nat.shiftRight_eq_div_pow, Nat.shiftLeft_eq, Nat.mul_comm (retval / 2 ^ w)]
  rw [← hror, hsh, Nat.shiftLeft_eq, Nat.mul_comm m]

/-- Divergence of the carry loop on a zero (sanitized) color selection:
no bit is ever found and the carry condition always holds, so the loop
never exits, whatever the fuel. -/
lemma nc_loop_zero_none (high : ℕ) :
    ∀ fuel cur_bit cur_conf retval,
      nc_loop 0 high fuel cur_bit cur_conf retval = none := by
  intro fuel
  induction fuel with
  | zero => intro _ _ _; rfl
  | succ fuel ih =>
    intro cur_bit cur_conf retval
    rw [nc_loop]
    rcases Nat.eq_zero_or_pos cur_bit with h0 | hpos
    · simp only [h0, Nat.and_comm, Nat.zero_and]
      simp [ih]
    · rw [if_neg (by simp), if_pos (by omega)]
      exact ih _ _ _

/-- Full run of `next_colored` on a valid color selection over the
geometry with color bits `[12, w)`: either the sweep finds the lowest
selected color at or above the current one (first disjunct), or no
selected color lies at or above the current one and a single carry of
`way_size = 2 ^ w` lands on the lowest selected color (second
disjunct). -/
lemma next_colored_run {w phys col : ℕ} (hw : 14 ≤ w) (hcol0 : col ≠ 0)
    (hcol : col < 2 ^ 2 ^ (w - 12)) :
    (∃ m, col.testBit m = true ∧ phys / 2 ^ 12 % 2 ^ (w - 12) ≤ m ∧
       m < 2 ^ (w - 12) ∧
       (∀ t, phys / 2 ^ 12 % 2 ^ (w - 12) ≤ t → t < m → col.testBit t = false) ∧
       next_colored phys (2 ^ w - 2 ^ 12) col
         = some (2 ^ w * (phys / 2 ^ w) + 2 ^ 12 * m))
    ∨ (∃ m, col.testBit m = true ∧ (∀ t, t < m → col.testBit t = false) ∧
       m < 2 ^ (w - 12) ∧
       (∀ t, phys / 2 ^ 12 % 2 ^ (w - 12) ≤ t → col.testBit t = false) ∧
       next_colored phys (2 ^ w - 2 ^ 12) col
         = some (2 ^ w * (phys / 2 ^ w) + 2 ^ w + 2 ^ 12 * m)) := by
  have hmaxv : (1 <<< (((2 ^ w - 2 ^ 12) >>> HV_PAGE_SHIFT) + 1)) - 1
      = 2 ^ 2 ^ (w - 12) - 1 := by
    have h1 : (1 : ℕ) ≤ 2 ^ (w - 12) := Nat.one_le_two_pow
    rw [show HV_PAGE_SHIFT = 12 from rfl, mask_shiftRight_twelve (by omega),
        Nat.one_shiftLeft]
    congr 2
    omega
  have hnoclamp : ¬ ((2 ^ 2 ^ (w - 12) - 1) < col) := by
    omega
  have hconf : cur_col_conf phys HV_PAGE_SHIFT (log_two (2 ^ w - 2 ^ 12))
      = phys / 2 ^ 12 % 2 ^ (w - 12) := by
    rw [log_two_mask hw, cur_col_conf_eq, Nat.shiftRight_eq_div_pow]
    rfl
  set c := phys / 2 ^ 12 % 2 ^ (w - 12) with hc
  have hbound : ∀ t, col.testBit t = true → t < 2 ^ (w - 12) := by
    intro t ht
    have h1 := Nat.testBit_implies_ge ht
    by_contra hge
    have h2 : (2 : ℕ) ^ 2 ^ (w - 12) ≤ 2 ^ t :=
      Nat.pow_le_pow_right (by norm_num) (by omega)
    omega
  have hgas : ∀ m, col.testBit m = true →
      m + 2 ≤ 2 * col + 2 * log_two (2 ^ w - 2 ^ 12) + 8 := by
    intro m hm
    have h1 := Nat.testBit_implies_ge hm
    have h2 : m < 2 ^ m := Nat.lt_two_pow m
    omega
  rw [next_colored, next_colored_gas]
  rw [if_neg hcol0]
  simp only [hmaxv, hconf, if_neg hnoclamp]
  by_cases hex : ∃ t, c ≤ t ∧ col.testBit t = true
  · left
    set m := Nat.find hex with hmdef
    obtain ⟨hcm, hmbit⟩ := Nat.find_spec hex
    have hmin : ∀ t, c ≤ t → t < m → col.testBit t = false := by
      intro t hct htm
      rcases hb : col.testBit t with _ | _
      · rfl
      · exact absurd ⟨hct, hb⟩ (Nat.find_min hex htm)
    refine ⟨m, hmbit, hcm, hbound m hmbit, hmin, ?_⟩
    rw [nc_loop_finds (log_two (2 ^ w - 2 ^ 12)) hmbit _ c phys hcm hmin
      (by have := hgas m hmbit; omega)]
    dsimp only
    rw [log_two_mask hw, reassemble_eq (by omega) (hbound m hmbit)]
  · right
    push_neg at hex
    have hnone : ∀ t, c ≤ t → col.testBit t = false := by
      intro t hct
      rcases hb : col.testBit t with _ | _
      · rfl
      · exact absurd hb (hex t hct)
    obtain ⟨i0, hi0⟩ := Nat.ne_zero_implies_bit_true hcol0
    have hex0 : ∃ t, col.testBit t = true := ⟨i0, hi0⟩
    set m := Nat.find hex0 with hmdef
    have hmbit : col.testBit m = true := Nat.find_spec hex0
    have hmin : ∀ t, t < m → col.testBit t = false := by
      intro t htm
      rcases hb : col.testBit t with _ | _
      · rfl
      · exact absurd hb (Nat.find_min hex0 htm)
    refine ⟨m, hmbit, hmin, hbound m hmbit, hnone, ?_⟩
    rw [nc_loop_carry (log_two (2 ^ w - 2 ^ 12)) hmbit hmin hnone _ phys
      (by have := hgas m hmbit; omega)]
    dsimp only
    rw [log_two_mask hw, reassemble_eq (by omega) (hbound m hmbit),
        Nat.one_shiftLeft]
    exact congrArg some (by
      rw [Nat.add_div_right _ (by positivity)]
      ring)

lemma two_pow_w_split {w : ℕ} (hw : 12 ≤ w) :
    (2 : ℕ) ^ w = 2 ^ 12 * 2 ^ (w - 12) := by
  rw [← pow_add]
  congr 1
  omega

/-- Claim C1: for every page-aligned physical address `phys` and every
non-zero color bitmap `col` whose set bits all lie below
`color_count = (color_mask >> page_shift) + 1`, `next_colored` returns the
lowest page-aligned frame `p' ≥ phys` whose color index
`(p' & color_mask) >> page_shift` is a set bit of `col`; the result is
page-aligned and its color bit intersects `col`.  The color mask is the
one of the spec data model, with color bits `[page_shift, log2 way_size)`
and at least two color bits (`way_size ≥ 4 pages`). -/
theorem next_colored_lowest_conforming {w phys col : ℕ} (hw : 14 ≤ w)
    (hal : phys % 2 ^ 12 = 0) (hcol0 : col ≠ 0)
    (hcol : col < 2 ^ (((2 ^ w - 2 ^ 12) >>> HV_PAGE_SHIFT) + 1)) :
    ∃ p', next_colored phys (2 ^ w - 2 ^ 12) col = some p' ∧
      p' % 2 ^ 12 = 0 ∧
      col.testBit ((p' &&& (2 ^ w - 2 ^ 12)) >>> HV_PAGE_SHIFT) = true ∧
      phys ≤ p' ∧
      ∀ q, q % 2 ^ 12 = 0 →
        col.testBit ((q &&& (2 ^ w - 2 ^ 12)) >>> HV_PAGE_SHIFT) = true →
        phys ≤ q → p' ≤ q := by
  have hshift : HV_PAGE_SHIFT = 12 := rfl
  have hcol2 : col < 2 ^ 2 ^ (w - 12) := by
    rw [hshift, mask_shiftRight_twelve (by omega)] at hcol
    have h1 : (1 : ℕ) ≤ 2 ^ (w - 12) := Nat.one_le_two_pow
    rwa [show 2 ^ (w - 12) - 1 + 1 = 2 ^ (w - 12) by omega] at hcol
  obtain ⟨cc, hccdef⟩ : ∃ x, (2 : ℕ) ^ (w - 12) = x := ⟨_, rfl⟩
  have hccpos : 0 < cc := by
    rw [← hccdef]
    positivity
  have h2w : (2 : ℕ) ^ w = 2 ^ 12 * cc := by
    rw [← hccdef]
    exact two_pow_w_split (by omega)
  obtain ⟨P, hPdef⟩ : ∃ x, phys / 2 ^ 12 = x := ⟨_, rfl⟩
  have hphys : phys = 2 ^ 12 * P := by
    rw [← hPdef]
    have := Nat.div_add_mod phys (2 ^ 12)
    omega
  have hPdiv : phys / 2 ^ w = P / cc := by
    rw [h2w, ← Nat.div_div_eq_div_mul, hPdef]
  obtain ⟨c, hcdef⟩ : ∃ x, P % cc = x := ⟨_, rfl⟩
  have hPsplit : P = cc * (P / cc) + c := by
    rw [← hcdef]
    exact (Nat.div_add_mod P cc).symm
  have hclt : c < cc := by
    rw [← hcdef]
    exact Nat.mod_lt _ hccpos
  -- the color of an aligned page 2^12 * K is K % cc
  have hcolor : ∀ K : ℕ, ((2 ^ 12 * K) &&& (2 ^ w - 2 ^ 12)) >>> HV_PAGE_SHIFT
      = K % cc := by
    intro K
    rw [hshift, color_of_eq (by omega), Nat.mul_div_cancel_left _ (by positivity),
        hccdef]
  rcases @next_colored_run _ phys _ hw hcol0 hcol2 with
    ⟨m, hmbit, hcm, hmcc, hmin, heq⟩ | ⟨m, hmbit, hmmin, hmcc, hnone, heq⟩
  · -- sweep case: p' = 2^12 * (cc * (P / cc) + m) with c ≤ m
    rw [hccdef] at hmcc
    rw [hPdef, hccdef, hcdef] at hcm
    simp only [hPdef, hccdef, hcdef] at hmin
    have hpval : 2 ^ w * (phys / 2 ^ w) + 2 ^ 12 * m
        = 2 ^ 12 * (cc * (P / cc) + m) := by
      rw [hPdiv, h2w]
      ring
    refine ⟨_, heq, ?_, ?_, ?_, ?_⟩
    · rw [hpval]
      exact Nat.mul_mod_right _ _
    · rw [hpval, hcolor, Nat.add_comm (cc * (P / cc)) m,
          Nat.add_mul_mod_self_left, Nat.mod_eq_of_lt hmcc]
      exact hmbit
    · rw [hpval]
      conv_lhs => rw [hphys, hPsplit]
      have : cc * (P / cc) + c ≤ cc * (P / cc) + m := by omega
      exact Nat.mul_le_mul_left _ this
    · intro q hqal hqcol hpq
      obtain ⟨K, hKdef⟩ : ∃ x, q / 2 ^ 12 = x := ⟨_, rfl⟩
      have hq : q = 2 ^ 12 * K := by
        rw [← hKdef]
        have := Nat.div_add_mod q (2 ^ 12)
        omega
      rw [hq, hcolor] at hqcol
      have hPK : P ≤ K := by
        rw [hphys, hq] at hpq
        exact Nat.le_of_mul_le_mul_left hpq (by positivity)
      have hKsplit : K = cc * (K / cc) + K % cc := (Nat.div_add_mod K cc).symm
      have hKlt : K % cc < cc := Nat.mod_lt _ hccpos
      rw [hpval, hq]
      apply Nat.mul_le_mul_left
      rcases Nat.lt_trichotomy (K / cc) (P / cc) with hqt | hqt | hqt
      · -- impossible: K < P
        exfalso
        have h1 : K < cc * (K / cc) + cc := by omega
        have h2 : cc * (K / cc + 1) ≤ cc * (P / cc) := Nat.mul_le_mul_left _ (by omega)
        have h3 : cc * (K / cc + 1) = cc * (K / cc) + cc := by ring
        omega
      · -- same stride: K % cc is a selected color ≥ c, so m ≤ K % cc
        have h1 : cc * (K / cc) = cc * (P / cc) := by rw [hqt]
        have hKc : c ≤ K % cc := by omega
        have hmK : m ≤ K % cc := by
          by_contra hlt
          rw [hmin (K % cc) hKc (by omega)] at hqcol
          exact Bool.false_ne_true hqcol
        omega
      · -- later stride
        have h1 : cc * (P / cc + 1) ≤ cc * (K / cc) := Nat.mul_le_mul_left _ (by omega)
        have h2 : cc * (P / cc + 1) = cc * (P / cc) + cc := by ring
        omega
  · -- carry case: p' = 2^12 * (cc * (P / cc + 1) + m), no selected color ≥ c
    rw [hccdef] at hmcc
    simp only [hPdef, hccdef, hcdef] at hnone
    have hpval : 2 ^ w * (phys / 2 ^ w) + 2 ^ w + 2 ^ 12 * m
        = 2 ^ 12 * (cc * (P / cc + 1) + m) := by
      rw [hPdiv, h2w]
      ring
    refine ⟨_, heq, ?_, ?_, ?_, ?_⟩
    · rw [hpval]
      exact Nat.mul_mod_right _ _
    · rw [hpval, hcolor, Nat.add_comm (cc * (P / cc + 1)) m,
          Nat.add_mul_mod_self_left, Nat.mod_eq_of_lt hmcc]
      exact hmbit
    · rw [hpval]
      conv_lhs => rw [hphys, hPsplit]
      apply Nat.mul_le_mul_left
      have h2 : cc * (P / cc + 1) = cc * (P / cc) + cc := by ring
      omega
    · intro q hqal hqcol hpq
      obtain ⟨K, hKdef⟩ : ∃ x, q / 2 ^ 12 = x := ⟨_, rfl⟩
      have hq : q = 2 ^ 12 * K := by
        rw [← hKdef]
        have := Nat.div_add_mod q (2 ^ 12)
        omega
      rw [hq, hcolor] at hqcol
      have hPK : P ≤ K := by
        rw [hphys, hq] at hpq
        exact Nat.le_of_mul_le_mul_left hpq (by positivity)
      have hKsplit : K = cc * (K / cc) + K % cc := (Nat.div_add_mod K cc).symm
      have hKlt : K % cc < cc := Nat.mod_lt _ hccpos
      have hKc : K % cc < c := by
        by_contra hge
        rw [hnone (K % cc) (by omega)] at hqcol
        exact Bool.false_ne_true hqcol
      have hmK : m ≤ K % cc := by
        by_contra hlt
        rw [hmmin (K % cc) (by omega)] at hqcol
        exact Bool.false_ne_true hqcol
      rw [hpval, hq]
      apply Nat.mul_le_mul_left
      have h2 : cc * (P / cc + 1) = cc * (P / cc) + cc := by ring
      rcases Nat.lt_or_ge (K / cc) (P / cc + 1) with hqt | hqt
      · -- K / cc ≤ P / cc: impossible since K ≥ P but K % cc < c
        exfalso
        have h1 : cc * (K / cc) ≤ cc * (P / cc) := Nat.mul_le_mul_left _ (by omega)
        omega
      · have h1 : cc * (P / cc + 1) ≤ cc * (K / cc) := Nat.mul_le_mul_left _ hqt
        omega

/-- Witness for C1 at the documented geometry (`way_size = 64 KiB`,
`color_mask = 0xf000`), `phys = 0x1000`, `col_val = 1`. -/
theorem next_colored_lowest_conforming_witness :
    (14 ≤ 16 ∧ 0x1000 % 2 ^ 12 = 0 ∧ (1 : ℕ) ≠ 0 ∧
      (1 : ℕ) < 2 ^ (((2 ^ 16 - 2 ^ 12) >>> HV_PAGE_SHIFT) + 1)) ∧
    (∃ p', next_colored 0x1000 (2 ^ 16 - 2 ^ 12) 1 = some p' ∧
      p' % 2 ^ 12 = 0 ∧
      (1 : ℕ).testBit ((p' &&& (2 ^ 16 - 2 ^ 12)) >>> HV_PAGE_SHIFT) = true ∧
      0x1000 ≤ p' ∧
      ∀ q, q % 2 ^ 12 = 0 →
        (1 : ℕ).testBit ((q &&& (2 ^ 16 - 2 ^ 12)) >>> HV_PAGE_SHIFT) = true →
        0x1000 ≤ q → p' ≤ q) :=
  ⟨⟨by decide, by decide, by decide, by decide⟩,
    next_colored_lowest_conforming (w := 16) (by decide) (by decide)
      (by decide) (by decide)⟩

/-- Claim C2 (failing part): with `addr_col_mask = 0xf000`
(`color_count = 16`) and `col_val = 0x10000`, whose only set bit is at
position 16 ≥ `color_count`, the sanitization `col_val &= (1 << 16) - 1`
zeroes `col_val`, after which the carry loop never finds a selected
color: `next_colored` diverges (returns `none` for every fuel), instead
of terminating as the spec claims. -/
theorem next_colored_out_of_range_diverges :
    ∀ gas phys, next_colored_gas gas phys 0xf000 0x10000 = none := by
  intro gas phys
  rw [next_colored_gas]
  rw [if_neg (by decide)]
  have hclamp : (0x10000 : ℕ) &&& ((1 <<< log_two 0xf000) - 1) = 0 := by decide
  have hmax : ((1 <<< ((0xf000 >>> HV_PAGE_SHIFT) + 1)) - 1 : ℕ) = 0xffff := by decide
  simp only [hmax, if_pos (by decide : (0xffff : ℕ) < 0x10000), hclamp,
    nc_loop_zero_none]

/-- Claim C3 (corrected): on `phys = 0x1000` (color 1),
`col_val = 0x0001`, `color_mask = 0xf000`, `next_colored` carries
`way_size = 0x10000` and then clears the color bits, returning the
color-0 frame `0x10000` — not `0x11000`, which has color 1. -/
theorem next_colored_carry_scenario :
    next_colored 0x1000 0xf000 0x0001 = some 0x10000 := by decide

/-- Counterexample to claim C3 as stated: the returned frame is not
`0x11000` (indeed `0x11000` has color 1, which is not selected by
`col_val = 0x0001`). -/
theorem next_colored_carry_scenario_not_11000 :
    next_colored 0x1000 0xf000 0x0001 ≠ some 0x11000 ∧
    (0x11000 &&& 0xf000) >>> HV_PAGE_SHIFT = 1 := by decide

/-- Claim C4 (code evaluation at the S5 input): for the colored region
`phys_start = 0`, `virt_start = 0x80000000`, `size = 0x40000`,
`colors = 0x0f00`, with `f_size = 0x1000` and `f_offset = 0x10000`, the
planner emits sixteen fragments (one per stride `r = 0..15`, since each
stride covers only `0x4000` of the `0x40000` virtual range), each of
size `0x4000`, at physical bases `0x4000 + r * 0x10000` — the color
range selected is `4..7`, not `8..11`, because the mask-building loop
stores bit `k` of `colors` at mask index `MAX_COLORS - 1 - k`. -/
theorem manage_fragments_s5_eval :
    (manage_colored_region_fragments
        { memory := { phys_start := 0, virt_start := 0x80000000,
                      size := 0x40000, flags := no_flags, colors := 0 },
          colors := 0x0f00 } 0x1000 0x10000).map
      (List.map (fun f => (f.phys_start, f.virt_start, f.size)))
    = some [
      (0x04000, 0x80000000, 0x4000), (0x14000, 0x80004000, 0x4000),
      (0x24000, 0x80008000, 0x4000), (0x34000, 0x8000c000, 0x4000),
      (0x44000, 0x80010000, 0x4000), (0x54000, 0x80014000, 0x4000),
      (0x64000, 0x80018000, 0x4000), (0x74000, 0x8001c000, 0x4000),
      (0x84000, 0x80020000, 0x4000), (0x94000, 0x80024000, 0x4000),
      (0xa4000, 0x80028000, 0x4000), (0xb4000, 0x8002c000, 0x4000),
      (0xc4000, 0x80030000, 0x4000), (0xd4000, 0x80034000, 0x4000),
      (0xe4000, 0x80038000, 0x4000), (0xf4000, 0x8003c000, 0x4000)] := by
  decide

/-- Claim C10 (code evaluation at the failing input): on a bitmap of
length `n = 1` whose last (only) entry is set, the run-extension scan
`while (mask[++j] && j < size)` reads `mask[1]`, i.e. index `n`, because
the array access is evaluated before the bound check `j < size`. -/
theorem ranges_in_mask_reads_out_of_bounds :
    ranges_in_mask_reads [true] 1 = [0, 1] ∧ (1 : ℕ) ∈ ranges_in_mask_reads [true] 1 ∧
    ¬ (1 : ℕ) < 1 := by
  decide

/-- Counterexample to claim C5 as stated: the colored region
`virt_start = 0`, `size = 0x1000` (one page, a page multiple) with
non-zero colors `0x3` makes the planner emit a single fragment of size
`0x2000` (the full two-page stride footprint), so the fragment sizes sum
to `0x2000 ≠ R.size` and the fragments cover `[0, 0x2000)`, not
`[0, 0x1000)`: the stop condition is only checked between strides and
the final stride overruns. -/
theorem manage_fragments_overrun_counterexample :
    ((manage_colored_region_fragments
        { memory := { phys_start := 0, virt_start := 0, size := 0x1000,
                      flags := no_flags, colors := 0 }, colors := 0x3 }
        0x1000 0x10000).map
      (fun L => ((L.map JailhouseMemory.size).sum,
                 L.map (fun f => (f.virt_start, f.size)))))
    = some (0x2000, [(0, 0x2000)]) ∧ (0x2000 : ℕ) ≠ 0x1000 := by
  decide

/-! ## Part 3: fragment-planner tiling lemmas -/

lemma emit_stride_snd (phys_start f_size f_offset : ℕ) (flags : MemFlags)
    (r : ℕ) : ∀ (ranges : List (ℕ × ℕ)) (virt : ℕ),
    (emit_stride phys_start f_size f_offset flags r ranges virt).2
      = virt + ranges_size ranges f_size := by
  intro ranges
  induction ranges with
  | nil => intro virt; simp [emit_stride, ranges_size]
  | cons ij rest ih =>
    intro virt
    simp only [emit_stride, ih, ranges_size, List.map_cons, List.sum_cons]
    omega

lemma emit_stride_flatten (phys_start f_size f_offset : ℕ) (flags : MemFlags)
    (r : ℕ) : ∀ (ranges : List (ℕ × ℕ)) (virt : ℕ),
    (((emit_stride phys_start f_size f_offset flags r ranges virt).1.map
        (fun f => List.range' f.virt_start f.size)).flatten)
      = List.range' virt (ranges_size ranges f_size) := by
  intro ranges
  induction ranges with
  | nil => intro virt; simp [emit_stride, ranges_size]
  | cons ij rest ih =>
    intro virt
    simp only [emit_stride, List.map_cons, List.flatten_cons, ih]
    rw [List.range'_append_1]
    congr 1
    simp only [ranges_size, List.map_cons, List.sum_cons]
    omega

lemma emit_stride_sizes (phys_start f_size f_offset : ℕ) (flags : MemFlags)
    (r : ℕ) : ∀ (ranges : List (ℕ × ℕ)) (virt : ℕ),
    ((emit_stride phys_start f_size f_offset flags r ranges virt).1.map
        JailhouseMemory.size).sum = ranges_size ranges f_size := by
  intro ranges
  induction ranges with
  | nil => intro virt; simp [emit_stride, ranges_size]
  | cons ij rest ih =>
    intro virt
    simp only [emit_stride, List.map_cons, List.sum_cons, ih]
    simp only [ranges_size, List.map_cons, List.sum_cons]

lemma plan_go_tiles (phys_start f_size f_offset : ℕ) (flags : MemFlags)
    (ranges : List (ℕ × ℕ)) (virt_end : ℕ) :
    ∀ fuel virt r, virt ≤ virt_end →
      ranges_size ranges f_size ∣ (virt_end - virt) →
      virt_end - virt < fuel →
      ∃ L, plan_go phys_start f_size f_offset flags ranges virt_end fuel virt r
          = some L ∧
        (L.map (fun f => List.range' f.virt_start f.size)).flatten
          = List.range' virt (virt_end - virt) ∧
        (L.map JailhouseMemory.size).sum = virt_end - virt := by
  intro fuel
  induction fuel with
  | zero => omega
  | succ fuel ih =>
    intro virt r hle hdvd hfuel
    rcases Nat.eq_or_lt_of_le hle with heq | hlt
    · subst heq
      refine ⟨[], ?_, by simp, by simp⟩
      rw [plan_go, if_neg (by omega)]
    · have hcovpos : 0 < ranges_size ranges f_size := by
        rcases Nat.eq_zero_or_pos (ranges_size ranges f_size) with h0 | hpos
        · rw [h0] at hdvd
          omega
        · exact hpos
      have hcovle : ranges_size ranges f_size ≤ virt_end - virt :=
        Nat.le_of_dvd (by omega) hdvd
      obtain ⟨L, hL, hflat, hsum⟩ := ih (virt + ranges_size ranges f_size) (r + 1)
        (by omega)
        (by
          have h2 : virt_end - (virt + ranges_size ranges f_size)
              = (virt_end - virt) - ranges_size ranges f_size := by omega
          rw [h2]
          exact Nat.dvd_sub' hdvd dvd_rfl)
        (by omega)
      refine ⟨(emit_stride phys_start f_size f_offset flags r ranges virt).1 ++ L,
        ?_, ?_, ?_⟩
      · rw [plan_go, if_pos hlt, emit_stride_snd, hL]
      · rw [List.map_append, List.flatten_append, emit_stride_flatten, hflat,
          List.range'_append_1]
        congr 1
        omega
      · rw [List.map_append, List.sum_append, emit_stride_sizes, hsum]
        omega

/-- Claim C5 (amended): for every colored region whose size is a
multiple of the per-stride colored footprint
(`ranges_size` of the extracted ranges, i.e. `popcount` of the low
`MAX_COLORS` bits of `colors` times `f_size`), the emitted fragments
tile the guest-virtual range exactly: the multiset union (here: the
ordered concatenation) of `[frag.virt, frag.virt + frag.size)` equals
`[virt_start, virt_start + size)` with no gap and no overlap, and the
fragment sizes sum to exactly the region size. -/
theorem manage_fragments_tile (col_mem : JailhouseMemoryColored)
    (f_size f_offset : ℕ)
    (hdvd : ranges_size
        (ranges_in_mask (build_mask (f_offset / f_size) col_mem.colors)
          (f_offset / f_size)) f_size ∣ col_mem.memory.size) :
    ∃ L, manage_colored_region_fragments col_mem f_size f_offset = some L ∧
      (L.map (fun f => List.range' f.virt_start f.size)).flatten
        = List.range' col_mem.memory.virt_start col_mem.memory.size ∧
      (L.map JailhouseMemory.size).sum = col_mem.memory.size := by
  obtain ⟨L, hL, hflat, hsum⟩ := plan_go_tiles col_mem.memory.phys_start f_size
    f_offset col_mem.memory.flags
    (ranges_in_mask (build_mask (f_offset / f_size) col_mem.colors)
      (f_offset / f_size))
    (col_mem.memory.virt_start + col_mem.memory.size)
    (col_mem.memory.size + 1) col_mem.memory.virt_start 0
    (by omega)
    (by simpa using hdvd)
    (by omega)
  refine ⟨L, ?_, ?_, ?_⟩
  · rw [manage_colored_region_fragments]
    exact hL
  · simpa using hflat
  · simpa using hsum

/-- Witness for the amended C5 at the S5 geometry: `colors = 0x0f00`,
`size = 0x40000`, footprint `0x4000` divides the size. -/
theorem manage_fragments_tile_witness :
    (ranges_size
        (ranges_in_mask (build_mask (0x10000 / 0x1000) 0x0f00)
          (0x10000 / 0x1000)) 0x1000 ∣ 0x40000) ∧
    (∃ L, manage_colored_region_fragments
        { memory := { phys_start := 0, virt_start := 0x80000000,
                      size := 0x40000, flags := no_flags, colors := 0 },
          colors := 0x0f00 } 0x1000 0x10000 = some L ∧
      (L.map (fun f => List.range' f.virt_start f.size)).flatten
        = List.range' 0x80000000 0x40000 ∧
      (L.map JailhouseMemory.size).sum = 0x40000) :=
  ⟨by decide,
    manage_fragments_tile
      { memory := { phys_start := 0, virt_start := 0x80000000,
                    size := 0x40000, flags := no_flags, colors := 0 },
        colors := 0x0f00 } 0x1000 0x10000 (by decide)⟩

/-! ## Part 4: the DESTROY operation -/

lemma destroy_frag_step_ok (unmap_f remap_root_f : JailhouseMemory → Int)
    (f : JailhouseMemory) (e0 : Int)
    (hu : ¬ JAILHOUSE_MEMORY_IS_SUBPAGE f = true → unmap_f f = 0)
    (hr : ¬ (f.flags.comm_region = true ∨ f.flags.rootshared = true) →
      remap_root_f f = 0) :
    (destroy_frag_step unmap_f remap_root_f f e0).2.2 = false ∧
    (destroy_frag_step unmap_f remap_root_f f e0).2.1 =
      destroy_expected_calls [f] := by
  have hu2 : JAILHOUSE_MEMORY_IS_SUBPAGE f = false → unmap_f f = 0 :=
    fun h => hu (by simp [h])
  have hr2 : f.flags.comm_region = false → f.flags.rootshared = false →
      remap_root_f f = 0 :=
    fun h1 h2 => hr (by simp [h1, h2])
  rcases hc : f.flags.comm_region with _ | _ <;>
    rcases hrs : f.flags.rootshared with _ | _ <;>
      rcases hspb : JAILHOUSE_MEMORY_IS_SUBPAGE f with _ | _ <;>
        simp [destroy_frag_step, destroy_expected_calls, hc, hrs, hspb,
          hu2, hr2]

/-- Claim C9 (amended), part 1: when no `unmap_f` or `remap_root_f`
call fails, DESTROY walks the whole fragment list and performs exactly
the expected calls for every fragment. -/
lemma destroy_run_complete (unmap_f remap_root_f : JailhouseMemory → Int) :
    ∀ (frags : List JailhouseMemory) (e0 : Int),
      (∀ f ∈ frags,
        (¬ JAILHOUSE_MEMORY_IS_SUBPAGE f = true → unmap_f f = 0) ∧
        (¬ (f.flags.comm_region = true ∨ f.flags.rootshared = true) →
          remap_root_f f = 0)) →
      (destroy_run unmap_f remap_root_f frags e0).2
        = destroy_expected_calls frags := by
  intro frags
  induction frags with
  | nil => intro e0 h; simp [destroy_run, destroy_expected_calls]
  | cons f rest ih =>
    intro e0 h
    obtain ⟨hf, hrest⟩ := List.forall_mem_cons.mp h
    obtain ⟨hok, hcalls⟩ :=
      destroy_frag_step_ok unmap_f remap_root_f f e0 hf.1 hf.2
    rw [destroy_run, if_neg (by rw [hok]; simp)]
    dsimp only
    rw [hcalls, ih _ hrest]
    simp [destroy_expected_calls]

/-- Claim C9 (amended), part 2: DESTROY aborts at the first fragment
whose (non-subpage) stage-2 unmap fails: the error is returned
immediately and no call is made for the remaining fragments. -/
lemma destroy_run_aborts (unmap_f remap_root_f : JailhouseMemory → Int) :
    ∀ (pre : List JailhouseMemory) (f : JailhouseMemory)
      (post : List JailhouseMemory) (e0 : Int),
      (∀ g ∈ pre,
        (¬ JAILHOUSE_MEMORY_IS_SUBPAGE g = true → unmap_f g = 0) ∧
        (¬ (g.flags.comm_region = true ∨ g.flags.rootshared = true) →
          remap_root_f g = 0)) →
      ¬ JAILHOUSE_MEMORY_IS_SUBPAGE f = true → unmap_f f ≠ 0 →
      destroy_run unmap_f remap_root_f (pre ++ f :: post) e0
        = (unmap_f f, destroy_expected_calls pre ++ [ColCall.unmap f]) := by
  intro pre
  induction pre with
  | nil =>
    intro f post e0 _ hsp hne
    rw [List.nil_append, destroy_run]
    have hstep : destroy_frag_step unmap_f remap_root_f f e0
        = (unmap_f f, [ColCall.unmap f], true) := by
      simp [destroy_frag_step, hsp, hne]
    rw [hstep]
    simp [destroy_expected_calls]
  | cons g rest ih =>
    intro f post e0 h hsp hne
    obtain ⟨hg, hrest⟩ := List.forall_mem_cons.mp h
    obtain ⟨hok, hcalls⟩ :=
      destroy_frag_step_ok unmap_f remap_root_f g e0 hg.1 hg.2
    rw [List.cons_append, destroy_run, if_neg (by rw [hok]; simp)]
    rw [hcalls, ih f post _ hrest hsp hne]
    simp [destroy_expected_calls]

/-- Claim C9 (amended): the DESTROY operation processes fragments in
order; when no collaborator call fails it makes the expected `unmap`
and `remap_root` calls for every fragment of the region, but any
nonzero error from the stage-2 unmap of a (non-subpage) fragment is
returned immediately — the remaining fragments are not processed, so
DESTROY does *not* always make forward progress through the whole
fragment list. -/
theorem destroy_run_error_policy (unmap_f remap_root_f : JailhouseMemory → Int)
    (frags pre post : List JailhouseMemory) (f : JailhouseMemory) (e0 : Int)
    (hfrags : ∀ g ∈ frags,
      (¬ JAILHOUSE_MEMORY_IS_SUBPAGE g = true → unmap_f g = 0) ∧
      (¬ (g.flags.comm_region = true ∨ g.flags.rootshared = true) →
        remap_root_f g = 0))
    (hpre : ∀ g ∈ pre,
      (¬ JAILHOUSE_MEMORY_IS_SUBPAGE g = true → unmap_f g = 0) ∧
      (¬ (g.flags.comm_region = true ∨ g.flags.rootshared = true) →
        remap_root_f g = 0))
    (hsp : ¬ JAILHOUSE_MEMORY_IS_SUBPAGE f = true) (hne : unmap_f f ≠ 0) :
    (destroy_run unmap_f remap_root_f frags e0).2
        = destroy_expected_calls frags ∧
    destroy_run unmap_f remap_root_f (pre ++ f :: post) e0
        = (unmap_f f, destroy_expected_calls pre ++ [ColCall.unmap f]) :=
  ⟨destroy_run_complete unmap_f remap_root_f frags e0 hfrags,
    destroy_run_aborts unmap_f remap_root_f pre f post e0 hpre hsp hne⟩

/-- Counterexample to claim C9 as stated: with two ordinary fragments
and a stage-2 unmap that fails on the first one, DESTROY returns the
error immediately — the second fragment is never unmapped nor remapped
to the root cell, so the region-operator call does not make forward
progress through the whole fragment list. -/
theorem destroy_run_abort_counterexample :
    destroy_run
      (fun f => if f.virt_start = 0 then (-1 : Int) else 0)
      (fun _ => (0 : Int))
      [{ phys_start := 0x4000, virt_start := 0, size := 0x1000,
         flags := no_flags, colors := 0 },
       { phys_start := 0x14000, virt_start := 0x1000, size := 0x1000,
         flags := no_flags, colors := 0 }] (-22)
      = (-1, [ColCall.unmap
          { phys_start := 0x4000, virt_start := 0, size := 0x1000,
            flags := no_flags, colors := 0 }]) ∧
    ColCall.unmap
      { phys_start := 0x14000, virt_start := 0x1000, size := 0x1000,
        flags := no_flags, colors := 0 } ∉
      (destroy_run
        (fun f => if f.virt_start = 0 then (-1 : Int) else 0)
        (fun _ => (0 : Int))
        [{ phys_start := 0x4000, virt_start := 0, size := 0x1000,
           flags := no_flags, colors := 0 },
         { phys_start := 0x14000, virt_start := 0x1000, size := 0x1000,
           flags := no_flags, colors := 0 }] (-22)).2 := by
  decide

/-- Witness for the amended C9 at concrete fragments and callbacks. -/
theorem destroy_run_error_policy_witness :
    (destroy_run
        (fun f => if f.virt_start = 0 then (-1 : Int) else 0)
        (fun _ => (0 : Int))
        [{ phys_start := 0x14000, virt_start := 0x1000, size := 0x1000,
           flags := no_flags, colors := 0 }] (-22)).2
      = destroy_expected_calls
          [{ phys_start := 0x14000, virt_start := 0x1000, size := 0x1000,
             flags := no_flags, colors := 0 }] ∧
    destroy_run
        (fun f => if f.virt_start = 0 then (-1 : Int) else 0)
        (fun _ => (0 : Int))
        ([] ++ { phys_start := 0x4000, virt_start := 0, size := 0x1000,
                 flags := no_flags, colors := 0 } ::
          [{ phys_start := 0x14000, virt_start := 0x1000, size := 0x1000,
             flags := no_flags, colors := 0 }]) (-22)
      = ((fun f : JailhouseMemory =>
            if f.virt_start = 0 then (-1 : Int) else 0)
          { phys_start := 0x4000, virt_start := 0, size := 0x1000,
            flags := no_flags, colors := 0 },
        destroy_expected_calls [] ++ [ColCall.unmap
          { phys_start := 0x4000, virt_start := 0, size := 0x1000,
            flags := no_flags, colors := 0 }]) :=
  destroy_run_error_policy
    (fun f => if f.virt_start = 0 then (-1 : Int) else 0)
    (fun _ => (0 : Int))
    [{ phys_start := 0x14000, virt_start := 0x1000, size := 0x1000,
       flags := no_flags, colors := 0 }]
    []
    [{ phys_start := 0x14000, virt_start := 0x1000, size := 0x1000,
       flags := no_flags, colors := 0 }]
    { phys_start := 0x4000, virt_start := 0, size := 0x1000,
      flags := no_flags, colors := 0 }
    (-22) (by decide) (by decide) (by decide) (by decide)

/-! ## Part 5: recoloring-engine correctness -/

lemma write_page_same (mem : ℕ → ℕ) (a v : ℕ) : write_page mem a v a = v := by
  simp [write_page]

lemma write_page_other (mem : ℕ → ℕ) (a v x : ℕ) (h : x ≠ a) :
    write_page mem a v x = mem x := by
  simp [write_page, h]

/-- Effect of one backwards slice copy (pages `[base, base + size)`,
processed in decreasing order): every colored frame of the slice holds
the original contents of its source frame, and only colored frames of
the slice are written. -/
lemma colored_slice_copy_spec {Φ : ℕ → ℕ} {src_start N : ℕ}
    (hmono : ∀ p q, p < q → q < N → Φ p < Φ q)
    (hge : ∀ p, p < N → src_start + p ≤ Φ p) :
    ∀ (size base : ℕ) (mem : ℕ → ℕ), base + size ≤ N →
      (∀ i, i < size →
        colored_slice_copy Φ src_start base size mem (Φ (base + i))
          = mem (src_start + base + i)) ∧
      (∀ a, colored_slice_copy Φ src_start base size mem a ≠ mem a →
        ∃ i, i < size ∧ a = Φ (base + i)) := by
  intro size
  induction size with
  | zero =>
    intro base mem hbase
    refine ⟨by omega, fun a ha => absurd rfl ha⟩
  | succ k ih =>
    intro base mem hbase
    obtain ⟨ih1, ih2⟩ := ih base
      (write_page mem (Φ (base + k)) (mem (src_start + base + k))) (by omega)
    constructor
    · intro i hi
      rw [colored_slice_copy]
      rcases Nat.lt_or_ge i k with hik | hik
      · rw [ih1 i hik]
        exact write_page_other _ _ _ _ (by
          have h1 := hge (base + k) (by omega)
          omega)
      · have hik2 : i = k := by omega
        rw [hik2]
        have hnd : colored_slice_copy Φ src_start base k
            (write_page mem (Φ (base + k)) (mem (src_start + base + k)))
            (Φ (base + k))
            = write_page mem (Φ (base + k)) (mem (src_start + base + k))
              (Φ (base + k)) := by
          by_contra hch
          obtain ⟨i2, hi2, heq⟩ := ih2 _ hch
          have := hmono (base + i2) (base + k) (by omega) (by omega)
          omega
        rw [hnd, write_page_same]
    · intro a ha
      rw [colored_slice_copy] at ha
      by_cases hch : colored_slice_copy Φ src_start base k
          (write_page mem (Φ (base + k)) (mem (src_start + base + k))) a
          = write_page mem (Φ (base + k)) (mem (src_start + base + k)) a
      · rw [hch] at ha
        by_cases haw : a = Φ (base + k)
        · exact ⟨k, by omega, haw⟩
        · rw [write_page_other _ _ _ _ haw] at ha
          exact absurd rfl ha
      · obtain ⟨i2, hi2, heq⟩ := ih2 a hch
        exact ⟨i2, by omega, heq⟩

/-- Effect of the backwards outer loop of `colored_copy`: all `tot`
region pages end up copied into their colored frames, reading each
source frame before any write can clobber it, and only colored frames
of the region are written. -/
lemma colored_copy_go_spec {Φ : ℕ → ℕ} {src_start temp_pages N : ℕ}
    (hT : 0 < temp_pages)
    (hmono : ∀ p q, p < q → q < N → Φ p < Φ q)
    (hge : ∀ p, p < N → src_start + p ≤ Φ p) :
    ∀ (fuel tot : ℕ) (mem : ℕ → ℕ), tot ≤ fuel → tot ≤ N →
      (∀ p, p < tot →
        colored_copy_go Φ src_start temp_pages fuel tot mem (Φ p)
          = mem (src_start + p)) ∧
      (∀ a, colored_copy_go Φ src_start temp_pages fuel tot mem a ≠ mem a →
        ∃ p, p < tot ∧ a = Φ p) := by
  intro fuel
  induction fuel with
  | zero =>
    intro tot mem hf hN
    have h0 : tot = 0 := by omega
    subst h0
    exact ⟨by omega, fun a ha => absurd rfl ha⟩
  | succ fuel ih =>
    intro tot mem hf hN
    rcases Nat.eq_zero_or_pos tot with h0 | hpos
    · subst h0
      rw [colored_copy_go, if_pos rfl]
      exact ⟨by omega, fun a ha => absurd rfl ha⟩
    · rw [colored_copy_go, if_neg (by omega)]
      obtain ⟨hs1, hs2⟩ := colored_slice_copy_spec hmono hge (min tot temp_pages)
        (tot - min tot temp_pages) mem (by omega)
      obtain ⟨ih1, ih2⟩ := ih (tot - min tot temp_pages)
        (colored_slice_copy Φ src_start (tot - min tot temp_pages)
          (min tot temp_pages) mem) (by omega) (by omega)
      constructor
      · intro p hp
        rcases Nat.lt_or_ge p (tot - min tot temp_pages) with hlo | hhi
        · rw [ih1 p hlo]
          by_cases hch : colored_slice_copy Φ src_start
              (tot - min tot temp_pages) (min tot temp_pages) mem
              (src_start + p) = mem (src_start + p)
          · exact hch
          · obtain ⟨i2, hi2, heq⟩ := hs2 _ hch
            have := hge (tot - min tot temp_pages + i2) (by omega)
            omega
        · have hnd : colored_copy_go Φ src_start temp_pages fuel
              (tot - min tot temp_pages)
              (colored_slice_copy Φ src_start (tot - min tot temp_pages)
                (min tot temp_pages) mem) (Φ p)
              = colored_slice_copy Φ src_start (tot - min tot temp_pages)
                  (min tot temp_pages) mem (Φ p) := by
            by_contra hch
            obtain ⟨p2, hp2, heq⟩ := ih2 _ hch
            have := hmono p2 p (by omega) (by omega)
            omega
          rw [hnd]
          have := hs1 (p - (tot - min tot temp_pages)) (by omega)
          rw [show tot - min tot temp_pages +
              (p - (tot - min tot temp_pages)) = p by omega] at this
          rw [this]
          congr 1
          omega
      · intro a ha
        by_cases hch : colored_copy_go Φ src_start temp_pages fuel
            (tot - min tot temp_pages)
            (colored_slice_copy Φ src_start (tot - min tot temp_pages)
              (min tot temp_pages) mem) a
            = colored_slice_copy Φ src_start (tot - min tot temp_pages)
                (min tot temp_pages) mem a
        · rw [hch] at ha
          obtain ⟨i2, hi2, heq⟩ := hs2 a ha
          exact ⟨tot - min tot temp_pages + i2, by omega, heq⟩
        · obtain ⟨p2, hp2, heq⟩ := ih2 a hch
          exact ⟨p2, by omega, heq⟩

/-- Effect of one forward slice uncopy (pages `[p0, p0 + count)`,
processed in increasing order): every original frame of the slice is
restored from its colored frame (which is read before any later write
can touch it), and only original frames of the slice are written. -/
lemma colored_slice_uncopy_spec {Φ : ℕ → ℕ} {src_start N : ℕ}
    (hge : ∀ p, p < N → src_start + p ≤ Φ p) :
    ∀ (count p0 : ℕ) (mem : ℕ → ℕ), p0 + count ≤ N →
      (∀ i, i < count →
        colored_slice_uncopy Φ src_start p0 count mem (src_start + (p0 + i))
          = mem (Φ (p0 + i))) ∧
      (∀ a, colored_slice_uncopy Φ src_start p0 count mem a ≠ mem a →
        ∃ i, i < count ∧ a = src_start + (p0 + i)) := by
  intro count
  induction count with
  | zero =>
    intro p0 mem hb
    exact ⟨by omega, fun a ha => absurd rfl ha⟩
  | succ k ih =>
    intro p0 mem hb
    obtain ⟨ih1, ih2⟩ := ih (p0 + 1)
      (write_page mem (src_start + p0) (mem (Φ p0))) (by omega)
    constructor
    · intro i hi
      rw [colored_slice_uncopy]
      rcases Nat.eq_zero_or_pos i with hi0 | hipos
      · subst hi0
        have hnd : colored_slice_uncopy Φ src_start (p0 + 1) k
            (write_page mem (src_start + p0) (mem (Φ p0)))
            (src_start + (p0 + 0))
            = write_page mem (src_start + p0) (mem (Φ p0))
              (src_start + (p0 + 0)) := by
          by_contra hch
          obtain ⟨i2, hi2, heq⟩ := ih2 _ hch
          omega
        rw [hnd]
        simp [write_page]
      · have hi2 : i - 1 < k := by omega
        have hidx : p0 + i = p0 + 1 + (i - 1) := by omega
        rw [hidx, ih1 (i - 1) hi2]
        apply write_page_other
        have := hge (p0 + 1 + (i - 1)) (by omega)
        omega
    · intro a ha
      rw [colored_slice_uncopy] at ha
      by_cases hch : colored_slice_uncopy Φ src_start (p0 + 1) k
          (write_page mem (src_start + p0) (mem (Φ p0))) a
          = write_page mem (src_start + p0) (mem (Φ p0)) a
      · rw [hch] at ha
        by_cases haw : a = src_start + p0
        · exact ⟨0, by omega, by omega⟩
        · rw [write_page_other _ _ _ _ haw] at ha
          exact absurd rfl ha
      · obtain ⟨i2, hi2, heq⟩ := ih2 a hch
        exact ⟨i2 + 1, by omega, by omega⟩

/-- Effect of the forward outer loop of `colored_uncopy`: every
original frame from `done` up to `tot_pages` is restored from its
colored frame, and only those frames are written. -/
lemma colored_uncopy_go_spec {Φ : ℕ → ℕ} {src_start temp_pages tot_pages N : ℕ}
    (hT : 0 < temp_pages)
    (hge : ∀ p, p < N → src_start + p ≤ Φ p) (htot : tot_pages ≤ N) :
    ∀ (fuel done : ℕ) (mem : ℕ → ℕ), tot_pages - done ≤ fuel →
      (∀ p, done ≤ p → p < tot_pages →
        colored_uncopy_go Φ src_start temp_pages tot_pages fuel done mem
          (src_start + p) = mem (Φ p)) ∧
      (∀ a, colored_uncopy_go Φ src_start temp_pages tot_pages fuel done mem a
          ≠ mem a → ∃ p, done ≤ p ∧ p < tot_pages ∧ a = src_start + p) := by
  intro fuel
  induction fuel with
  | zero =>
    intro done mem hf
    have h0 : tot_pages - done = 0 := by omega
    rw [colored_uncopy_go]
    exact ⟨by omega, fun a ha => absurd rfl ha⟩
  | succ fuel ih =>
    intro done mem hf
    rcases Nat.eq_zero_or_pos (tot_pages - done) with h0 | hpos
    · rw [colored_uncopy_go, if_pos h0]
      exact ⟨by omega, fun a ha => absurd rfl ha⟩
    · rw [colored_uncopy_go, if_neg (by omega)]
      obtain ⟨hs1, hs2⟩ := colored_slice_uncopy_spec hge
        (min (tot_pages - done) temp_pages) done mem (by omega)
      obtain ⟨ih1, ih2⟩ := ih (done + min (tot_pages - done) temp_pages)
        (colored_slice_uncopy Φ src_start done
          (min (tot_pages - done) temp_pages) mem) (by omega)
      constructor
      · intro p hdp hp
        rcases Nat.lt_or_ge p (done + min (tot_pages - done) temp_pages)
          with hlo | hhi
        · have hnd : colored_uncopy_go Φ src_start temp_pages tot_pages fuel
              (done + min (tot_pages - done) temp_pages)
              (colored_slice_uncopy Φ src_start done
                (min (tot_pages - done) temp_pages) mem) (src_start + p)
              = colored_slice_uncopy Φ src_start done
                  (min (tot_pages - done) temp_pages) mem (src_start + p) := by
            by_contra hch
            obtain ⟨p2, hp2a, hp2b, heq⟩ := ih2 _ hch
            omega
          rw [hnd]
          have := hs1 (p - done) (by omega)
          rw [show done + (p - done) = p by omega] at this
          exact this
        · rw [ih1 p hhi hp]
          by_cases hch : colored_slice_uncopy Φ src_start done
              (min (tot_pages - done) temp_pages) mem (Φ p) = mem (Φ p)
          · exact hch
          · obtain ⟨i2, hi2, heq⟩ := hs2 _ hch
            have := hge p (by omega)
            omega
      · intro a ha
        by_cases hch : colored_uncopy_go Φ src_start temp_pages tot_pages fuel
            (done + min (tot_pages - done) temp_pages)
            (colored_slice_uncopy Φ src_start done
              (min (tot_pages - done) temp_pages) mem) a
            = colored_slice_uncopy Φ src_start done
                (min (tot_pages - done) temp_pages) mem a
        · rw [hch] at ha
          obtain ⟨i2, hi2, heq⟩ := hs2 a ha
          exact ⟨done + i2, by omega, by omega, by omega⟩
        · obtain ⟨p2, hp2a, hp2b, heq⟩ := ih2 a hch
          exact ⟨p2, by omega, hp2b, heq⟩

/-- Claim C6: the forward recoloring copy preserves contents even when
the colored destination physical range overlaps the non-colored source
range.  `Φ` is the page map of the colored mapping installed by
`HV_CREATE`; the hypotheses state exactly the overlap geometry the
reverse order relies on — the colored frames are strictly increasing
and the `p`-th colored frame never lies below the `p`-th source frame
(which holds for the planner's color striping, where the `p`-th colored
page of a stride layout is at or above `src_start + p`).  Conclusion:
after `colored_copy` every page of the colored mapping holds the page
originally at the same offset of the non-colored layout, and
`colored_uncopy` (forward order) restores the original identity
layout. -/
theorem colored_copy_uncopy_fidelity (Φ : ℕ → ℕ)
    (src_start tot_pages temp_pages : ℕ) (mem : ℕ → ℕ)
    (hT : 0 < temp_pages)
    (hmono : ∀ p q, p < q → q < tot_pages → Φ p < Φ q)
    (hge : ∀ p, p < tot_pages → src_start + p ≤ Φ p) :
    (∀ p, p < tot_pages →
      colored_copy Φ src_start tot_pages temp_pages mem (Φ p)
        = mem (src_start + p)) ∧
    (∀ p, p < tot_pages →
      colored_uncopy Φ src_start tot_pages temp_pages
        (colored_copy Φ src_start tot_pages temp_pages mem) (src_start + p)
        = mem (src_start + p)) := by
  obtain ⟨hc1, hc2⟩ := colored_copy_go_spec (N := tot_pages) hT hmono hge
    (tot_pages + 1) tot_pages mem (by omega) (by omega)
  obtain ⟨hu1, hu2⟩ := colored_uncopy_go_spec (N := tot_pages) hT hge
    (le_refl tot_pages) (tot_pages + 1) 0
    (colored_copy Φ src_start tot_pages temp_pages mem) (by omega)
  refine ⟨fun p hp => hc1 p hp, fun p hp => ?_⟩
  rw [colored_uncopy]
  rw [hu1 p (by omega) hp]
  exact hc1 p hp

/-- Witness for C6: two pages, slice size one, colored frames at
`Φ p = 2 p` overlapping the source range `[0, 2)`. -/
theorem colored_copy_uncopy_fidelity_witness :
    ((0 : ℕ) < 1) ∧
    ((∀ p, p < 2 →
      colored_copy (fun p => 2 * p) 0 2 1 (fun a => a + 100) ((fun p => 2 * p) p)
        = (fun a : ℕ => a + 100) (0 + p)) ∧
    (∀ p, p < 2 →
      colored_uncopy (fun p => 2 * p) 0 2 1
        (colored_copy (fun p => 2 * p) 0 2 1 (fun a => a + 100)) (0 + p)
        = (fun a : ℕ => a + 100) (0 + p))) :=
  ⟨by decide,
    colored_copy_uncopy_fidelity (fun p => 2 * p) 0 2 1 (fun a => a + 100)
      (by decide)
      (by intro p q h1 h2; simp only []; omega)
      (by intro p hp; simp only []; omega)⟩

/-! ## Part 6: driver-validator lemmas -/

lemma next_colored_isSome {w phys col : ℕ} (hw : 14 ≤ w) (hcol0 : col ≠ 0)
    (hcol : col < 2 ^ 2 ^ (w - 12)) :
    ∃ p', next_colored phys (2 ^ w - 2 ^ 12) col = some p' := by
  rcases @next_colored_run _ phys _ hw hcol0 hcol with
    ⟨m, _, _, _, _, heq⟩ | ⟨m, _, _, _, _, heq⟩ <;> exact ⟨_, heq⟩

lemma simulate_go_isSome {w col : ℕ} (hw : 14 ≤ w) (hcol0 : col ≠ 0)
    (hcol : col < 2 ^ 2 ^ (w - 12)) :
    ∀ fuel e size, size ≤ fuel →
      ∃ r, simulate_go (2 ^ w - 2 ^ 12) col fuel e size = some r := by
  intro fuel
  induction fuel with
  | zero =>
    intro e size hs
    have h0 : size = 0 := by omega
    subst h0
    exact ⟨e, rfl⟩
  | succ fuel ih =>
    intro e size hs
    rcases Nat.eq_zero_or_pos size with h0 | hpos
    · subst h0
      exact ⟨e, by rw [simulate_go, if_pos rfl]⟩
    · obtain ⟨e2, he2⟩ := @next_colored_isSome _ e _ hw hcol0 hcol
      obtain ⟨r, hr⟩ := ih (e2 + HV_PAGE_SIZE) (size - HV_PAGE_SIZE)
        (by have : (0 : ℕ) < HV_PAGE_SIZE := by decide
            omega)
      refine ⟨r, ?_⟩
      rw [simulate_go, if_neg (by omega), he2]
      exact hr

lemma simulate_coloring_isSome {w col : ℕ} (hw : 14 ≤ w) (hcol0 : col ≠ 0)
    (hcol : col < 2 ^ 2 ^ (w - 12)) (start size : ℕ) :
    ∃ r, simulate_coloring (2 ^ w - 2 ^ 12) start size col = some r := by
  rw [simulate_coloring]
  exact simulate_go_isSome hw hcol0 hcol (size + 1) _ size (by omega)

lemma colors_lt_of_le_max {w col : ℕ} (hw : 14 ≤ w)
    (hcmax : col ≤ (1 <<< (((2 ^ w - 2 ^ 12) >>> HV_PAGE_SHIFT) + 1)) - 1) :
    col < 2 ^ 2 ^ (w - 12) := by
  have hms : (2 ^ w - 2 ^ 12) >>> HV_PAGE_SHIFT = 2 ^ (w - 12) - 1 :=
    mask_shiftRight_twelve (by omega)
  rw [hms, Nat.one_shiftLeft] at hcmax
  have h1 : (1 : ℕ) ≤ 2 ^ (w - 12) := Nat.one_le_two_pow
  rw [show 2 ^ (w - 12) - 1 + 1 = 2 ^ (w - 12) by omega] at hcmax
  have h2 : (1 : ℕ) ≤ 2 ^ 2 ^ (w - 12) := Nat.one_le_two_pow
  omega

/-- Claim C7: for a non-root cell colored region in managed mode
(`phys_start = 0`, with a colors bitmap that passed the range checks):
validation fails when no root colored region is declared; otherwise the
simulated coloring of the region's size from the root colored region's
base always yields an address `e`, the region is rejected with an error
exactly when `e` exceeds the root colored region's end
(`base + size`), and otherwise `phys_start` is set to the root pool
base and the region is accepted. -/
theorem cell_setup_managed_mode {w : ℕ} (hw : 14 ≤ w) (cell_id : ℕ)
    (hid : cell_id ≠ 0) (R : JailhouseMemory)
    (hcc : R.flags.colored_cell = true) (hphys : R.phys_start = 0)
    (hc0 : R.colors ≠ 0)
    (hcmax : R.colors ≤ (1 <<< (((2 ^ w - 2 ^ 12) >>> HV_PAGE_SHIFT) + 1)) - 1) :
    jailhouse_coloring_cell_setup (2 ^ w - 2 ^ 12) none cell_id [R]
        = some (-ENOMEM, [R]) ∧
    ∀ rt : JailhouseMemory, ∃ e,
      simulate_coloring (2 ^ w - 2 ^ 12) rt.phys_start R.size R.colors
          = some e ∧
      (rt.phys_start + rt.size < e →
        jailhouse_coloring_cell_setup (2 ^ w - 2 ^ 12) (some rt) cell_id [R]
          = some (-ENOMEM, [{ R with phys_start := rt.phys_start }])) ∧
      (e ≤ rt.phys_start + rt.size →
        jailhouse_coloring_cell_setup (2 ^ w - 2 ^ 12) (some rt) cell_id [R]
          = some (0, [{ R with phys_start := rt.phys_start }])) := by
  have hmask0 : (2 : ℕ) ^ w - 2 ^ 12 ≠ 0 := by
    have h1 : (2 : ℕ) ^ 12 < 2 ^ w := Nat.pow_lt_pow_right (by norm_num) (by omega)
    omega
  have hnmax : ¬ ((1 <<< (((2 ^ w - 2 ^ 12) >>> HV_PAGE_SHIFT) + 1)) - 1
      < R.colors) := by omega
  have hnphys : ¬ (R.phys_start ≠ 0) := by omega
  constructor
  · rw [jailhouse_coloring_cell_setup, cell_setup_go]
    rw [show cell_region_check (2 ^ w - 2 ^ 12) none cell_id R
        = SetupStep.fail (-ENOMEM) R by
      unfold cell_region_check
      rw [if_pos hcc, if_neg hid, if_neg hmask0, if_neg hc0, if_neg hnmax,
        if_neg hnphys]]
  · intro rt
    obtain ⟨e, he⟩ := simulate_coloring_isSome (w := w) hw hc0
      (colors_lt_of_le_max hw hcmax) rt.phys_start R.size
    refine ⟨e, he, ?_, ?_⟩
    · intro hover
      have hcb : col_mem_bounded (2 ^ w - 2 ^ 12) (some rt)
          { R with phys_start := rt.phys_start } = some (-ENOMEM) := by
        rw [col_mem_bounded]
        simp only [he]
        rw [if_pos hover]
      rw [jailhouse_coloring_cell_setup, cell_setup_go]
      rw [show cell_region_check (2 ^ w - 2 ^ 12) (some rt) cell_id R
          = SetupStep.fail (-ENOMEM) { R with phys_start := rt.phys_start } by
        unfold cell_region_check
        rw [if_pos hcc, if_neg hid, if_neg hmask0, if_neg hc0, if_neg hnmax,
          if_neg hnphys]
        simp only [hcb]
        rw [if_pos (by decide)]]
    · intro hin
      have hcb : col_mem_bounded (2 ^ w - 2 ^ 12) (some rt)
          { R with phys_start := rt.phys_start } = some 0 := by
        rw [col_mem_bounded]
        simp only [he]
        rw [if_neg (by omega)]
      rw [jailhouse_coloring_cell_setup, cell_setup_go]
      rw [show cell_region_check (2 ^ w - 2 ^ 12) (some rt) cell_id R
          = SetupStep.ok { R with phys_start := rt.phys_start } by
        unfold cell_region_check
        rw [if_pos hcc, if_neg hid, if_neg hmask0, if_neg hc0, if_neg hnmax,
          if_neg hnphys]
        simp only [hcb]
        rw [if_neg (by decide)]]
      rfl

/-- Witness for C7 at `way_size = 64 KiB`, a managed region of two pages
with color 0. -/
theorem cell_setup_managed_mode_witness :
    (jailhouse_coloring_cell_setup (2 ^ 16 - 2 ^ 12) none 1
        [{ phys_start := 0, virt_start := 0, size := 0x2000,
           flags := { no_flags with colored_cell := true }, colors := 1 }]
      = some (-ENOMEM,
        [{ phys_start := 0, virt_start := 0, size := 0x2000,
           flags := { no_flags with colored_cell := true }, colors := 1 }])) ∧
    ∀ rt : JailhouseMemory, ∃ e,
      simulate_coloring (2 ^ 16 - 2 ^ 12) rt.phys_start 0x2000 1 = some e ∧
      (rt.phys_start + rt.size < e →
        jailhouse_coloring_cell_setup (2 ^ 16 - 2 ^ 12) (some rt) 1
          [{ phys_start := 0, virt_start := 0, size := 0x2000,
             flags := { no_flags with colored_cell := true }, colors := 1 }]
          = some (-ENOMEM,
            [{ phys_start := rt.phys_start, virt_start := 0, size := 0x2000,
               flags := { no_flags with colored_cell := true }, colors := 1 }])) ∧
      (e ≤ rt.phys_start + rt.size →
        jailhouse_coloring_cell_setup (2 ^ 16 - 2 ^ 12) (some rt) 1
          [{ phys_start := 0, virt_start := 0, size := 0x2000,
             flags := { no_flags with colored_cell := true }, colors := 1 }]
          = some (0,
            [{ phys_start := rt.phys_start, virt_start := 0, size := 0x2000,
               flags := { no_flags with colored_cell := true }, colors := 1 }])) :=
  cell_setup_managed_mode (w := 16) (by decide) 1 (by decide)
    { phys_start := 0, virt_start := 0, size := 0x2000,
      flags := { no_flags with colored_cell := true }, colors := 1 }
    (by decide) (by decide) (by decide) (by decide)

/-- A region that passes `cell_region_check` for a non-root cell has a
non-zero, in-range colors bitmap. -/
lemma cell_region_check_ok_colors {coloring_mask : ℕ}
    {root : Option JailhouseMemory} {cell_id : ℕ} {m m2 : JailhouseMemory}
    (h : cell_region_check coloring_mask root cell_id m = SetupStep.ok m2)
    (hflag : m.flags.colored_cell = true) (hid : cell_id ≠ 0) :
    m.colors ≠ 0 ∧
    ¬ ((1 <<< ((coloring_mask >>> HV_PAGE_SHIFT) + 1)) - 1 < m.colors) := by
  unfold cell_region_check at h
  rw [if_pos hflag, if_neg hid] at h
  by_cases hm0 : coloring_mask = 0
  · rw [if_pos hm0] at h
    exact absurd h (by simp)
  · rw [if_neg hm0] at h
    by_cases hc0 : m.colors = 0
    · rw [if_pos hc0] at h
      exact absurd h (by simp)
    · rw [if_neg hc0] at h
      by_cases hcm : (1 <<< ((coloring_mask >>> HV_PAGE_SHIFT) + 1)) - 1
          < m.colors
      · rw [if_pos hcm] at h
        exact absurd h (by simp)
      · exact ⟨hc0, hcm⟩

/-- A failing `cell_region_check` always carries a non-zero error. -/
lemma cell_region_check_fail_ne {coloring_mask : ℕ}
    {root : Option JailhouseMemory} {cell_id : ℕ} {m m2 : JailhouseMemory}
    {e : Int}
    (h : cell_region_check coloring_mask root cell_id m = SetupStep.fail e m2) :
    e ≠ 0 := by
  unfold cell_region_check at h
  repeat' split at h
  all_goals
    first
      | exact SetupStep.noConfusion h
      | (obtain ⟨rfl, rfl⟩ := (SetupStep.fail.injEq _ _ _ _).mp h.symm
         first
           | decide
           | assumption)

/-- For a non-root cell, the setup loop never returns success when some
region is flagged colored with a zero or out-of-range colors bitmap:
either that region's check fails, or an earlier region already
failed. -/
lemma cell_setup_go_rejects (coloring_mask : ℕ) (root : Option JailhouseMemory)
    (cell_id : ℕ) (hid : cell_id ≠ 0) :
    ∀ (regions : List JailhouseMemory) (R : JailhouseMemory)
      (out : Int × List JailhouseMemory),
      R ∈ regions → R.flags.colored_cell = true →
      (R.colors = 0 ∨
        (1 <<< ((coloring_mask >>> HV_PAGE_SHIFT) + 1)) - 1 < R.colors) →
      cell_setup_go coloring_mask root cell_id regions = some out →
      out.1 ≠ 0 := by
  intro regions
  induction regions with
  | nil =>
    intro R out hmem
    simp at hmem
  | cons m rest ih =>
    intro R out hmem hflag hbad hrun
    rw [cell_setup_go] at hrun
    cases hchk : cell_region_check coloring_mask root cell_id m with
    | ok m2 =>
      simp only [hchk] at hrun
      rcases hgo : cell_setup_go coloring_mask root cell_id rest with _ | pr
      · rw [hgo] at hrun
        exact absurd hrun (by simp)
      · obtain ⟨e2, rs⟩ := pr
        simp only [hgo] at hrun
        obtain rfl := Option.some.inj hrun
        have hRrest : R ∈ rest := by
          rcases List.mem_cons.mp hmem with heq | hr
          · subst heq
            obtain ⟨h1, h2⟩ := cell_region_check_ok_colors hchk hflag hid
            rcases hbad with hb | hb
            · exact absurd hb h1
            · exact absurd hb h2
          · exact hr
        exact ih R (e2, rs) hRrest hflag hbad hgo
    | fail e m2 =>
      simp only [hchk] at hrun
      obtain rfl := Option.some.inj hrun
      exact cell_region_check_fail_ne hchk
    | diverge =>
      simp only [hchk] at hrun
      exact absurd hrun (by simp)

/-- Claim C8: for every non-root cell, `jailhouse_coloring_cell_setup`
returns a nonzero error whenever some region flagged colored has a
colors bitmap that is zero or at least `2 ^ color_count`
(`color_count = (coloring_mask >> PAGE_SHIFT) + 1`); in particular the
S6 scenario `colors = 0x10000` with `coloring_mask = 0xf000`
(`color_count = 16`) is rejected with `-ENOMEM`; and a region whose
colors bitmap lies in `[1, 2 ^ color_count)` passes the colors checks
(shown for a manual region with no root colored region declared, where
the later checks are vacuous: the per-region validation accepts it
unchanged). -/
theorem cell_setup_colors_validation :
    (∀ (coloring_mask : ℕ) (root : Option JailhouseMemory) (cell_id : ℕ)
       (regions : List JailhouseMemory) (R : JailhouseMemory)
       (out : Int × List JailhouseMemory),
       cell_id ≠ 0 → R ∈ regions → R.flags.colored_cell = true →
       (R.colors = 0 ∨
         2 ^ ((coloring_mask >>> HV_PAGE_SHIFT) + 1) ≤ R.colors) →
       jailhouse_coloring_cell_setup coloring_mask root cell_id regions =
         some out →
       out.1 ≠ 0) ∧
    jailhouse_coloring_cell_setup 0xf000 none 1
        [{ phys_start := 0x100000, virt_start := 0, size := 0x1000,
           flags := { no_flags with colored_cell := true },
           colors := 0x10000 }] =
      some (-ENOMEM,
        [{ phys_start := 0x100000, virt_start := 0, size := 0x1000,
           flags := { no_flags with colored_cell := true },
           colors := 0x10000 }]) ∧
    (∀ (coloring_mask cell_id : ℕ) (M : JailhouseMemory),
       coloring_mask ≠ 0 → cell_id ≠ 0 → M.flags.colored_cell = true →
       M.phys_start ≠ 0 → 1 ≤ M.colors →
       M.colors < 2 ^ ((coloring_mask >>> HV_PAGE_SHIFT) + 1) →
       cell_region_check coloring_mask none cell_id M = SetupStep.ok M) := by
  refine ⟨?_, by decide, ?_⟩
  · intro coloring_mask root cell_id regions R out hid hmem hflag hbad hrun
    have hbad' : R.colors = 0 ∨
        (1 <<< ((coloring_mask >>> HV_PAGE_SHIFT) + 1)) - 1 < R.colors := by
      rcases hbad with h0 | hge
      · exact Or.inl h0
      · refine Or.inr ?_
        rw [Nat.one_shiftLeft]
        have hp := Nat.one_le_two_pow (n := coloring_mask >>> HV_PAGE_SHIFT)
        omega
    exact cell_setup_go_rejects coloring_mask root cell_id hid regions R out
      hmem hflag hbad' hrun
  · intro coloring_mask cell_id M hcm hcid hflag hphys h1 h2
    have hc0 : ¬ M.colors = 0 := by omega
    have hmax : ¬ ((1 <<< ((coloring_mask >>> HV_PAGE_SHIFT) + 1)) - 1
        < M.colors) := by
      rw [Nat.one_shiftLeft]
      omega
    unfold cell_region_check
    rw [if_pos hflag, if_neg hcid, if_neg hcm, if_neg hc0, if_neg hmax,
      if_pos hphys]
    have hov : mem_root_overlap coloring_mask none M = some 0 := rfl
    simp only [hov]
    rw [if_neg (by decide)]

/-- Witness for C8: the out-of-range part applied to a one-region cell
whose colored region has `colors = 0` (rejected with `-ENOMEM`), and
the in-range part applied to a manual region with `colors = 5` under
`coloring_mask = 0xf000`. -/
theorem cell_setup_colors_validation_witness :
    (-ENOMEM : Int) ≠ 0 ∧
    cell_region_check 0xf000 none 1
        { phys_start := 0x100000, virt_start := 0, size := 0x1000,
          flags := { no_flags with colored_cell := true }, colors := 5 } =
      SetupStep.ok
        { phys_start := 0x100000, virt_start := 0, size := 0x1000,
          flags := { no_flags with colored_cell := true }, colors := 5 } := by
  constructor
  · exact cell_setup_colors_validation.1 0xf000 none 1
      [{ phys_start := 0x100000, virt_start := 0, size := 0x1000,
         flags := { no_flags with colored_cell := true }, colors := 0 }]
      { phys_start := 0x100000, virt_start := 0, size := 0x1000,
        flags := { no_flags with colored_cell := true }, colors := 0 }
      (-ENOMEM,
        [{ phys_start := 0x100000, virt_start := 0, size := 0x1000,
           flags := { no_flags with colored_cell := true }, colors := 0 }])
      (by decide) (by decide) (by decide) (Or.inl rfl) (by decide)
  · exact cell_setup_colors_validation.2.2 0xf000 1
      { phys_start := 0x100000, virt_start := 0, size := 0x1000,
        flags := { no_flags with colored_cell := true }, colors := 5 }
      (by decide) (by decide) (by decide) (by decide) (by decide) (by decide)
